import Mathlib

/-!
Verification of the graph-construction core of `visualize_structures_3d.py`.

We shallowly embed the data model and the two graph-building traversals of
`build_graph`, together with the type classifier `guess_type`, over an
inductive type for the fragment of the Python abstract syntax that those
functions inspect.  `ast.walk` is modelled faithfully as breadth-first
enumeration of all descendants (a queue that pops from the front and appends
each popped node's children at the back); the `networkx.Graph` container is
modelled as an insertion-ordered association list of nodes (key to attribute
record) and a list of undirected edges keyed by unordered endpoint pairs,
with the update-on-re-add semantics of `add_node` / `add_edge`.
-/

namespace Viz

/-- Runtime values that may sit inside an `ast.Constant` node in our fragment:
ints, strings, booleans, floats (kept as their literal text, since only the
type name and the unparsed text are ever consumed) and `None`. -/
inductive ConstVal where
  | intVal (n : Int)
  | strVal (s : String)
  | boolVal (b : Bool)
  | floatVal (text : String)
  | noneVal
deriving DecidableEq

/-- `type(node.value).__name__` for a constant node, as read on line 29 of
the source. -/
def typeName : ConstVal → String
  | .intVal _ => "int"
  | .strVal _ => "str"
  | .boolVal _ => "bool"
  | .floatVal _ => "float"
  | .noneVal => "NoneType"

mutual
/-- The fragment of the Python abstract syntax inspected by `build_graph`:
module, class and function definitions, simple and annotated assignments,
expression statements, `pass`, and the expression forms that `guess_type`,
the call-linking branch and the container-expansion pass look at.  `BinOp`
carries its operator as text; the operator object carries no structure the
visualizer consumes. -/
inductive Ast where
  | Module (body : AstList)
  | ClassDef (name : String) (body : AstList)
  | FunctionDef (name : String) (body : AstList)
  | Assign (targets : AstList) (value : Ast)
  | AnnAssign (target : Ast) (ann : Ast) (value : Option Ast)
  | ExprStmt (value : Ast)
  | Pass
  | Name (id : String)
  | Constant (value : ConstVal)
  | ListLit (elts : AstList)
  | DictLit (keys : AstList) (values : AstList)
  | SetLit (elts : AstList)
  | TupleLit (elts : AstList)
  | Call (func : Ast) (args : AstList)
  | Attribute (value : Ast) (attr : String)
  | BinOp (left : Ast) (op : String) (right : Ast)

/-- Lists of syntax nodes, as a mutual inductive so that every recursion
below is structural and hence computable by the kernel. -/
inductive AstList where
  | nil
  | cons (head : Ast) (tail : AstList)
end

/-- Convert an `AstList` to an ordinary list. -/
def AstList.toList : AstList → List Ast
  | .nil => []
  | .cons a t => a :: t.toList

/-- Convert an ordinary list of nodes to an `AstList` (used to write down
concrete programs). -/
def AstList.ofList : List Ast → AstList
  | [] => .nil
  | a :: t => .cons a (AstList.ofList t)

/-- `ast.iter_child_nodes`, restricted to our fragment, in Python field
order: for assignments the targets precede the value, for annotated
assignments the target precedes the annotation which precedes the value,
for dict literals all keys precede all values, for calls the callee precedes
the arguments. -/
def children : Ast → List Ast
  | .Module body => body.toList
  | .ClassDef _ body => body.toList
  | .FunctionDef _ body => body.toList
  | .Assign targets value => targets.toList ++ [value]
  | .AnnAssign target ann value => [target, ann] ++ value.toList
  | .ExprStmt value => [value]
  | .Pass => []
  | .Name _ => []
  | .Constant _ => []
  | .ListLit elts => elts.toList
  | .DictLit keys values => keys.toList ++ values.toList
  | .SetLit elts => elts.toList
  | .TupleLit elts => elts.toList
  | .Call func args => func :: args.toList
  | .Attribute value _ => [value]
  | .BinOp left _ right => [left, right]

mutual
/-- Number of syntax nodes in a tree (used as exact fuel for the
breadth-first walk). -/
def countA : Ast → Nat
  | .Module body => 1 + countL body
  | .ClassDef _ body => 1 + countL body
  | .FunctionDef _ body => 1 + countL body
  | .Assign targets value => 1 + countL targets + countA value
  | .AnnAssign target ann value =>
    1 + countA target + countA ann + (match value with | some v => countA v | none => 0)
  | .ExprStmt value => 1 + countA value
  | .Pass => 1
  | .Name _ => 1
  | .Constant _ => 1
  | .ListLit elts => 1 + countL elts
  | .DictLit keys values => 1 + countL keys + countL values
  | .SetLit elts => 1 + countL elts
  | .TupleLit elts => 1 + countL elts
  | .Call func args => 1 + countA func + countL args
  | .Attribute value _ => 1 + countA value
  | .BinOp left _ right => 1 + countA left + countA right

/-- Total node count of a list of trees. -/
def countL : AstList → Nat
  | .nil => 0
  | .cons a t => countA a + countL t
end

/-- Total node count of a queue of trees. -/
def countQ (q : List Ast) : Nat := (q.map countA).sum

/-- One breadth-first step per unit of fuel: pop the front node, emit it and
append its children at the back of the queue.  `countA t` units of fuel
process the whole tree rooted at `t` exactly (each node is popped once), so
the fuel-exhausted case is never reached from `walk`. -/
def walkAux : Nat → List Ast → List Ast
  | _, [] => []
  | 0, _ :: _ => []
  | Nat.succ n, a :: rest => a :: walkAux n (rest ++ children a)

/-- `ast.walk`: breadth-first enumeration of a tree's nodes, the root first. -/
def walk (t : Ast) : List Ast := walkAux (countA t) [t]

/-- The `TYPE_COLOR` table (lines 8-21 of the source).  Only key membership
is consumed by the core. -/
def TYPE_COLOR : List (String × String) :=
  [("list", "rgb(0,150,255)"),
   ("dict", "rgb(255,140,0)"),
   ("set", "rgb(50,200,50)"),
   ("tuple", "rgb(200,0,200)"),
   ("class", "rgb(255,0,0)"),
   ("function", "rgb(0,0,255)"),
   ("int", "rgb(200,200,200)"),
   ("str", "rgb(255,105,180)"),
   ("float", "rgb(180,180,255)"),
   ("bool", "rgb(150,150,150)"),
   ("module", "rgb(0,0,0)"),
   ("unknown", "rgb(120,120,120)")]

/-- `t in TYPE_COLOR`: membership among the table's keys. -/
def inTypeColor (t : String) : Bool := TYPE_COLOR.any (fun p => p.1 == t)

/-- `str.lower()` on the identifiers compared against the table's keys
(ASCII case mapping). -/
def lowerStr (s : String) : String :=
  String.mk (s.data.map (fun c =>
    if c.toNat ≥ 65 ∧ c.toNat ≤ 90 then Char.ofNat (c.toNat + 32) else c))

/-- `guess_type` (lines 23-36): classify an expression node by shallow
syntactic shape, defaulting to `"unknown"`. -/
def guess_type : Ast → String
  | .ListLit _ => "list"
  | .DictLit _ _ => "dict"
  | .SetLit _ => "set"
  | .TupleLit _ => "tuple"
  | .Constant v =>
    let t := typeName v
    if inTypeColor t then t else "unknown"
  | .Call f _ =>
    match f with
    | .Name id =>
      let n := lowerStr id
      if inTypeColor n then n else "unknown"
    | _ => "unknown"
  | _ => "unknown"

/-- Python repr of a constant, as produced by `ast.unparse` on a constant
node (string escaping beyond plain quoting is not modelled; no inspected
key contains a quote). -/
def constRepr : ConstVal → String
  | .intVal n => toString n
  | .strVal s => "\x27" ++ s ++ "\x27"
  | .boolVal true => "True"
  | .boolVal false => "False"
  | .floatVal text => text
  | .noneVal => "None"

/-- Join rendered fragments with commas. -/
def joinComma : List String → String
  | [] => ""
  | [s] => s
  | s :: t => s ++ ", " ++ joinComma t

/-- Join rendered dict keys and values as `key: value` pairs with commas. -/
def joinItems (ks vs : List String) : String :=
  joinComma ((ks.zip vs).map (fun p => p.1 ++ ": " ++ p.2))

mutual
/-- `ast.unparse` on the expression fragment (the source applies it only to
dict keys, annotations and attribute-style callees).  Statement forms are
never unparsed by `build_graph`; they map to the empty string. -/
def unparse : Ast → String
  | .Name id => id
  | .Constant v => constRepr v
  | .ListLit elts => "[" ++ joinComma (unparseList elts) ++ "]"
  | .DictLit keys values =>
    "\x7b" ++ joinItems (unparseList keys) (unparseList values) ++ "\x7d"
  | .SetLit elts => "\x7b" ++ joinComma (unparseList elts) ++ "\x7d"
  | .TupleLit (.cons a .nil) => "(" ++ unparse a ++ ",)"
  | .TupleLit elts => "(" ++ joinComma (unparseList elts) ++ ")"
  | .Call f args => unparse f ++ "(" ++ joinComma (unparseList args) ++ ")"
  | .Attribute v attr => unparse v ++ "." ++ attr
  | .BinOp l op r => unparse l ++ " " ++ op ++ " " ++ unparse r
  | _ => ""

/-- Render each node of a list. -/
def unparseList : AstList → List String
  | .nil => []
  | .cons a t => unparse a :: unparseList t
end

/-- Attributes held by a graph node.  `networkx` stores an attribute dict;
`build_graph` only ever sets the keys `kind` and `label` (and `add_edge`
can create an endpoint with neither set, hence the options). -/
structure NodeData where
  kind : Option String
  label : Option String
deriving DecidableEq

/-- An edge entry: the two endpoint keys in the orientation first written,
and the `relation` attribute. -/
abbrev EdgeEntry := String × String × String

/-- The graph: insertion-ordered node list plus edge list, one entry per
unordered endpoint pair. -/
structure Graph where
  nodes : List (String × NodeData)
  edges : List EdgeEntry
deriving DecidableEq

/-- The empty `nx.Graph()`. -/
def Graph.empty : Graph := ⟨[], []⟩

/-- Insert or overwrite a node's attribute record, keeping its position if
the key is already present (as `networkx` does). -/
def setNode : List (String × NodeData) → String → NodeData → List (String × NodeData)
  | [], k, d => [(k, d)]
  | (k', d') :: rest, k, d =>
    if k' = k then (k, d) :: rest else (k', d') :: setNode rest k d

/-- Look up a node's attribute record. -/
def lookupNode : List (String × NodeData) → String → Option NodeData
  | [], _ => none
  | (k', d) :: rest, k => if k' = k then some d else lookupNode rest k

/-- Insert a node with no attributes if the key is absent (what
`nx.Graph.add_edge` does to a missing endpoint); leave the list unchanged
otherwise. -/
def ensureNode : List (String × NodeData) → String → List (String × NodeData)
  | [], k => [(k, ⟨none, none⟩)]
  | (k', d) :: rest, k =>
    if k' = k then (k', d) :: rest else (k', d) :: ensureNode rest k

/-- Does an edge entry connect `u` and `v` (in either orientation)? -/
def matchesEdge (u v : String) (e : EdgeEntry) : Prop :=
  (e.1 = u ∧ e.2.1 = v) ∨ (e.1 = v ∧ e.2.1 = u)

instance (u v : String) (e : EdgeEntry) : Decidable (matchesEdge u v e) := by
  unfold matchesEdge; infer_instance

/-- Insert an edge, or overwrite the `relation` attribute of the existing
entry for the same unordered endpoint pair (keeping its stored orientation),
as `nx.Graph.add_edge` does. -/
def setEdge : List EdgeEntry → String → String → String → List EdgeEntry
  | [], u, v, r => [(u, v, r)]
  | e :: rest, u, v, r =>
    if matchesEdge u v e then (e.1, e.2.1, r) :: rest else e :: setEdge rest u v r

/-- First (and, by construction, only) edge entry for an unordered pair. -/
def getEdge : List EdgeEntry → String → String → Option EdgeEntry
  | [], _, _ => none
  | e :: rest, u, v => if matchesEdge u v e then some e else getEdge rest u v

/-- `G.add_node(k, kind=kind, label=label)`. -/
def Graph.addNode (G : Graph) (k kind label : String) : Graph :=
  { G with nodes := setNode G.nodes k ⟨some kind, some label⟩ }

/-- `G.has_node(k)`. -/
def Graph.hasNode (G : Graph) (k : String) : Bool := (lookupNode G.nodes k).isSome

/-- `G.add_edge(u, v, relation=rel)`: create missing endpoints, then insert
or update the edge entry of the unordered pair. -/
def Graph.addEdge (G : Graph) (u v rel : String) : Graph :=
  { nodes := ensureNode (ensureNode G.nodes u) v,
    edges := setEdge G.edges u v rel }

/-- The `kind` attribute of a node, when present. -/
def Graph.kindOf (G : Graph) (k : String) : Option String :=
  (lookupNode G.nodes k).bind (fun d => d.kind)

/-- The `relation` attribute of the edge between `u` and `v`, when present. -/
def Graph.relOf (G : Graph) (u v : String) : Option String :=
  (getEdge G.edges u v).map (fun e => e.2.2)

/-- Adjacency: some edge entry connects `u` and `v`. -/
def Graph.Adj (G : Graph) (u v : String) : Prop :=
  ∃ e ∈ G.edges, matchesEdge u v e

/-- Reachability along edges. -/
def Graph.Reach (G : Graph) : String → String → Prop :=
  Relation.ReflTransGen G.Adj

/-- The `var_types` dictionary tracked by `build_graph` (written on lines
70 and 79, never read). -/
abbrev VarTypes := List (String × String)

/-- Dictionary update for `var_types`. -/
def setVar : VarTypes → String → String → VarTypes
  | [], k, v => [(k, v)]
  | (k', v') :: rest, k, v =>
    if k' = k then (k, v) :: rest else (k', v') :: setVar rest k v

/-- `os.path.basename`, on paths with forward slashes: the characters after
the last slash. -/
def basename (p : String) : String :=
  String.mk (p.data.foldl (fun acc c => if c = '/' then [] else acc ++ [c]) [])

/-- The callee key synthesized on lines 84-88: `name()` for a bare-name
callee, the unparsed callee text followed by `()` for an attribute-style
callee, nothing otherwise. -/
def funcKeyOf (f : Ast) : Option String :=
  match f with
  | .Name id => some (id ++ "()")
  | .Attribute _ _ => some (unparse f ++ "()")
  | _ => none

/-- The kind computed for an annotated assignment (lines 76-78): classify
the value if present, else fall back to the unparsed annotation text,
admitting it only when it names a table entry. -/
def annAssignKind (ann : Ast) (value : Option Ast) : String :=
  let annText := unparse ann
  let valType := match value with | some v => guess_type v | none => annText
  if inTypeColor valType then valType
  else if inTypeColor annText then annText else "unknown"

/-- One step of the first traversal (the `elif` chain on lines 51-95),
performed at each node of the breadth-first walk. -/
def step1 (M : String) (st : Graph × VarTypes) (a : Ast) : Graph × VarTypes :=
  match a with
  | .ClassDef name body =>
    let G := (st.1.addNode name "class" name).addEdge M name "contains"
    let G := body.toList.foldl
      (fun G b =>
        match b with
        | .FunctionDef m _ =>
          let fl := name ++ "." ++ m ++ "()"
          (G.addNode fl "function" fl).addEdge name fl "method"
        | _ => G) G
    (G, st.2)
  | .FunctionDef name _ =>
    let fl := name ++ "()"
    ((st.1.addNode fl "function" fl).addEdge M fl "contains", st.2)
  | .Assign targets value =>
    let valType := guess_type value
    targets.toList.foldl
      (fun st tgt =>
        match tgt with
        | .Name id =>
          ((st.1.addNode id valType id).addEdge M id "var", setVar st.2 id valType)
        | _ => st) st
  | .AnnAssign target ann value =>
    match target with
    | .Name id =>
      let kind := annAssignKind ann value
      ((st.1.addNode id kind id).addEdge M id "var", setVar st.2 id kind)
    | _ => st
  | .Call f args =>
    match funcKeyOf f with
    | some fn =>
      let G := if st.1.hasNode fn then st.1 else st.1.addNode fn "function" fn
      let G := G.addEdge M fn "calls"
      let G := args.toList.foldl
        (fun G arg =>
          match arg with
          | .Name id => if G.hasNode id then G.addEdge id fn "arg" else G
          | _ => G) G
      (G, st.2)
    | none => st
  | _ => st

/-- One step of the second traversal (lines 98-117): expand a literal
container on the right-hand side of an assignment into keyed or indexed
child nodes hanging off each bare-name target. -/
def step2 (G : Graph) (a : Ast) : Graph :=
  match a with
  | .Assign targets (.DictLit keys values) =>
    targets.toList.foldl
      (fun G tgt =>
        match tgt with
        | .Name parent =>
          (keys.toList.zip values.toList).foldl
            (fun G kv =>
              let child := parent ++ "." ++ unparse kv.1
              (G.addNode child (guess_type kv.2) child).addEdge parent child "dict-item") G
        | _ => G) G
  | .Assign targets value =>
    match value with
    | .ListLit elts | .SetLit elts | .TupleLit elts =>
      targets.toList.foldl
        (fun G tgt =>
          match tgt with
          | .Name parent =>
            elts.toList.enum.foldl
              (fun G ie =>
                let child := parent ++ "[" ++ toString ie.1 ++ "]"
                (G.addNode child (guess_type ie.2) child).addEdge parent child "seq-item") G
          | _ => G) G
    | _ => G
  | _ => G

/-- `build_graph` (lines 38-119), applied to an already-parsed tree: create
the module node, run the breadth-first walk through the `elif` chain, then
run it again through the container-expansion pass. -/
def build_graph (py_path : String) (tree : Ast) : Graph :=
  let module_name := basename py_path
  let G0 := Graph.empty.addNode module_name "module" module_name
  let w := walk tree
  let st := w.foldl (step1 module_name) (G0, ([] : VarTypes))
  w.foldl step2 st.1

/-- The whole of `build_graph` including the parse on line 41: `ast.parse`
is external library code whose failure is an exception; we model its result
as `Except`.  A parse failure propagates and no graph value of any shape is
produced. -/
def build_graph_checked (py_path : String) (parsed : Except String Ast) :
    Except String Graph :=
  match parsed with
  | .error e => .error e
  | .ok tree => .ok (build_graph py_path tree)

/-! ### Generic fold lemmas -/

theorem foldl_preserve {α β : Type} (P : α → Prop) (f : α → β → α) :
    ∀ (l : List β) (st : α), P st → (∀ st b, b ∈ l → P st → P (f st b)) →
    P (List.foldl f st l)
  | [], st, h, _ => h
  | b :: t, st, h, hstep => by
    refine foldl_preserve P f t (f st b) (hstep st b (List.mem_cons_self b t) h) ?_
    intro st' b' hb' h'
    exact hstep st' b' (List.mem_cons_of_mem b hb') h'

theorem foldl_achieve {α β : Type} (P : α → Prop) (f : α → β → α) :
    ∀ (l : List β) (st : α) (b₀ : β), b₀ ∈ l → (∀ st, P (f st b₀)) →
    (∀ st b, b ∈ l → P st → P (f st b)) → P (List.foldl f st l)
  | b :: t, st, b₀, hmem, hget, hkeep => by
    rcases List.mem_cons.mp hmem with rfl | hmem'
    · refine foldl_preserve P f t (f st b₀) (hget st) ?_
      intro st' b' hb' h'
      exact hkeep st' b' (List.mem_cons_of_mem b₀ hb') h'
    · refine foldl_achieve P f t (f st b) b₀ hmem' hget ?_
      intro st' b' hb' h'
      exact hkeep st' b' (List.mem_cons_of_mem b hb') h'

/-! ### Walk lemmas -/

theorem countA_pos (a : Ast) : 1 ≤ countA a := by
  cases a
  case AnnAssign target ann value => cases value <;> (simp only [countA]; omega)
  all_goals (simp only [countA]; omega)

theorem countQ_nil : countQ [] = 0 := rfl

theorem countQ_cons (a : Ast) (q : List Ast) : countQ (a :: q) = countA a + countQ q := by
  simp [countQ]

theorem countQ_append (q r : List Ast) : countQ (q ++ r) = countQ q + countQ r := by
  simp [countQ]

theorem countL_eq_countQ : ∀ (l : AstList), countL l = countQ l.toList
  | .nil => rfl
  | .cons a t => by
    simp [countL, AstList.toList, countQ_cons, countL_eq_countQ t]

theorem countA_children (a : Ast) : countA a = 1 + countQ (children a) := by
  cases a with
  | AnnAssign target ann value =>
    cases value <;>
      simp [countA, children, countQ_append, countQ_cons, countL_eq_countQ,
        Option.toList, countQ_nil] <;> omega
  | _ =>
    simp [countA, children, countQ_append, countQ_cons, countL_eq_countQ,
      countQ_nil, countQ] <;> omega

theorem mem_walkAux_of_mem :
    ∀ (fuel : Nat) (q : List Ast) (a : Ast), countQ q ≤ fuel → a ∈ q →
    a ∈ walkAux fuel q
  | fuel, [], _, _, ha => absurd ha (List.not_mem_nil _)
  | 0, b :: q, a, hfuel, _ => by
    exfalso
    have := countA_pos b
    rw [countQ_cons] at hfuel
    omega
  | Nat.succ n, b :: q, a, hfuel, ha => by
    rw [walkAux]
    rcases List.mem_cons.mp ha with rfl | ha'
    · exact List.mem_cons_self _ _
    · refine List.mem_cons_of_mem _ (mem_walkAux_of_mem n (q ++ children b) a ?_ ?_)
      · rw [countQ_append, countQ_cons] at *
        have := countA_children b
        omega
      · exact List.mem_append_left _ ha'

theorem walkAux_closure :
    ∀ (fuel : Nat) (q : List Ast) (a c : Ast), countQ q ≤ fuel →
    a ∈ walkAux fuel q → c ∈ children a → c ∈ walkAux fuel q
  | fuel, [], _, _, _, ha, _ => absurd ha (by rw [walkAux]; exact List.not_mem_nil _)
  | 0, b :: q, a, c, hfuel, ha, _ => absurd ha (by rw [walkAux]; exact List.not_mem_nil _)
  | Nat.succ n, b :: q, a, c, hfuel, ha, hc => by
    rw [walkAux] at ha ⊢
    have hfuel' : countQ (q ++ children b) ≤ n := by
      rw [countQ_append]
      rw [countQ_cons] at hfuel
      have := countA_children b
      omega
    rcases List.mem_cons.mp ha with rfl | ha'
    · exact List.mem_cons_of_mem _
        (mem_walkAux_of_mem n (q ++ children a) c hfuel' (List.mem_append_right _ hc))
    · exact List.mem_cons_of_mem _ (walkAux_closure n (q ++ children b) a c hfuel' ha' hc)

theorem walk_closure {t a c : Ast} (ha : a ∈ walk t) (hc : c ∈ children a) :
    c ∈ walk t := by
  refine walkAux_closure (countA t) [t] a c ?_ ha hc
  simp [countQ_cons, countQ_nil]

/-! ### Node-list lemmas -/

theorem lookup_setNode_self :
    ∀ (l : List (String × NodeData)) (k : String) (d : NodeData),
    lookupNode (setNode l k d) k = some d
  | [], k, d => by simp [setNode, lookupNode]
  | (k', d') :: rest, k, d => by
    by_cases h : k' = k
    · simp [setNode, h, lookupNode]
    · simp [setNode, h, lookupNode, lookup_setNode_self rest k d]

theorem lookup_setNode_ne :
    ∀ (l : List (String × NodeData)) (k : String) (d : NodeData) (k' : String),
    k' ≠ k → lookupNode (setNode l k d) k' = lookupNode l k'
  | [], k, d, k', h => by
    have h2 : ¬ k = k' := fun hh => h hh.symm
    simp [setNode, lookupNode, h2]
  | (a, d') :: rest, k, d, k', h => by
    have h2 : ¬ k = k' := fun hh => h hh.symm
    by_cases ha : a = k
    · subst ha
      simp [setNode, lookupNode, h2]
    · simp only [setNode, if_neg ha, lookupNode]
      by_cases ha' : a = k'
      · simp [ha']
      · simp [ha', lookup_setNode_ne rest k d k' h]

theorem ensure_of_present :
    ∀ (l : List (String × NodeData)) (k : String),
    (lookupNode l k).isSome → ensureNode l k = l
  | [], k, h => by simp [lookupNode] at h
  | (a, d) :: rest, k, h => by
    by_cases ha : a = k
    · simp [ensureNode, ha]
    · simp only [lookupNode, if_neg ha] at h
      simp [ensureNode, ha, ensure_of_present rest k h]

theorem lookup_ensure_ne :
    ∀ (l : List (String × NodeData)) (k k' : String),
    k' ≠ k → lookupNode (ensureNode l k) k' = lookupNode l k'
  | [], k, k', h => by
    have h2 : ¬ k = k' := fun hh => h hh.symm
    simp [ensureNode, lookupNode, h2]
  | (a, d) :: rest, k, k', h => by
    by_cases ha : a = k
    · simp [ensureNode, ha]
    · simp only [ensureNode, if_neg ha, lookupNode]
      by_cases ha' : a = k'
      · simp [ha']
      · simp [ha', lookup_ensure_ne rest k k' h]

theorem lookup_ensure_absent :
    ∀ (l : List (String × NodeData)) (k : String),
    lookupNode l k = none →
    lookupNode (ensureNode l k) k = some ⟨none, none⟩
  | [], k, _ => by simp [ensureNode, lookupNode]
  | (a, d) :: rest, k, h => by
    by_cases ha : a = k
    · simp [lookupNode, ha] at h
    · simp only [lookupNode, if_neg ha] at h
      simp [ensureNode, ha, lookupNode, lookup_ensure_absent rest k h]

theorem lookup_ensure_self (l : List (String × NodeData)) (k : String) :
    (lookupNode (ensureNode l k) k).isSome := by
  rcases h : lookupNode l k with _ | d
  · simp [lookup_ensure_absent l k h]
  · rw [ensure_of_present l k (by simp [h]), h]
    rfl

theorem lookup_ensure_isSome_mono (l : List (String × NodeData)) (k k' : String)
    (h : (lookupNode l k').isSome) : (lookupNode (ensureNode l k) k').isSome := by
  by_cases hk : k' = k
  · subst hk; exact lookup_ensure_self l k'
  · rw [lookup_ensure_ne l k k' hk]; exact h

theorem lookup_ensure_inv (l : List (String × NodeData)) (k k' : String)
    (h : (lookupNode (ensureNode l k) k').isSome) :
    (lookupNode l k').isSome ∨ k' = k := by
  by_cases hk : k' = k
  · exact Or.inr hk
  · rw [lookup_ensure_ne l k k' hk] at h
    exact Or.inl h

theorem kind_lookup_ensure (l : List (String × NodeData)) (k k' : String) :
    ((lookupNode (ensureNode l k) k').bind NodeData.kind) =
    ((lookupNode l k').bind NodeData.kind) := by
  by_cases hk : k' = k
  · subst hk
    rcases h : lookupNode l k' with _ | d
    · simp [lookup_ensure_absent l k' h]
    · rw [ensure_of_present l k' (by simp [h]), h]
  · rw [lookup_ensure_ne l k k' hk]

theorem lookup_setNode_isSome_mono (l : List (String × NodeData)) (k : String)
    (d : NodeData) (k' : String) (h : (lookupNode l k').isSome) :
    (lookupNode (setNode l k d) k').isSome := by
  by_cases hk : k' = k
  · subst hk; simp [lookup_setNode_self]
  · rw [lookup_setNode_ne l k d k' hk]; exact h

theorem lookup_setNode_inv (l : List (String × NodeData)) (k : String)
    (d : NodeData) (k' : String) (h : (lookupNode (setNode l k d) k').isSome) :
    (lookupNode l k').isSome ∨ k' = k := by
  by_cases hk : k' = k
  · exact Or.inr hk
  · rw [lookup_setNode_ne l k d k' hk] at h
    exact Or.inl h

/-! ### Edge-list lemmas -/

/-- Two unordered endpoint pairs coincide. -/
def samePair (u v a b : String) : Prop := (a = u ∧ b = v) ∨ (a = v ∧ b = u)

instance (u v a b : String) : Decidable (samePair u v a b) := by
  unfold samePair; infer_instance

theorem matchesEdge_eq (u v : String) (e : EdgeEntry) :
    matchesEdge u v e ↔ samePair u v e.1 e.2.1 := Iff.rfl

theorem samePair_symm {u v a b : String} (h : samePair u v a b) : samePair v u a b := by
  rcases h with ⟨h1, h2⟩ | ⟨h1, h2⟩
  · exact Or.inr ⟨h1, h2⟩
  · exact Or.inl ⟨h1, h2⟩

theorem matches_of_matches_of_samePair {u v a b : String} {e : EdgeEntry}
    (hp : samePair u v a b) (he : matchesEdge a b e) : matchesEdge u v e := by
  rcases hp with ⟨rfl, rfl⟩ | ⟨rfl, rfl⟩
  · exact he
  · rcases he with ⟨h1, h2⟩ | ⟨h1, h2⟩
    · exact Or.inr ⟨h1, h2⟩
    · exact Or.inl ⟨h1, h2⟩

theorem samePair_of_matches_both {u v a b : String} {e : EdgeEntry}
    (h1 : matchesEdge u v e) (h2 : matchesEdge a b e) : samePair u v a b := by
  rcases h1 with ⟨e1, e2⟩ | ⟨e1, e2⟩ <;> rcases h2 with ⟨f1, f2⟩ | ⟨f1, f2⟩
  · exact Or.inl ⟨f1.symm.trans e1, f2.symm.trans e2⟩
  · exact Or.inr ⟨f2.symm.trans e2, f1.symm.trans e1⟩
  · exact Or.inr ⟨f1.symm.trans e1, f2.symm.trans e2⟩
  · exact Or.inl ⟨f2.symm.trans e2, f1.symm.trans e1⟩

theorem getEdge_rel_setEdge_self :
    ∀ (es : List EdgeEntry) (u v r : String),
    (getEdge (setEdge es u v r) u v).map (fun e => e.2.2) = some r
  | [], u, v, r => by
    simp [setEdge, getEdge, matchesEdge]
  | e :: rest, u, v, r => by
    by_cases h : matchesEdge u v e
    · have h' : matchesEdge u v (e.1, e.2.1, r) := h
      simp [setEdge, if_pos h, getEdge, if_pos h']
    · have h' : ¬ matchesEdge u v (e.1, e.2.1, r) := h
      simp [setEdge, if_neg h, getEdge, if_neg h, getEdge_rel_setEdge_self rest u v r]

theorem getEdge_setEdge_other :
    ∀ (es : List EdgeEntry) (u v a b r : String), ¬ samePair u v a b →
    getEdge (setEdge es a b r) u v = getEdge es u v
  | [], u, v, a, b, r, hp => by
    have : ¬ matchesEdge u v ((a, b, r) : EdgeEntry) := fun h => hp h
    simp [setEdge, getEdge, this]
  | e :: rest, u, v, a, b, r, hp => by
    by_cases hab : matchesEdge a b e
    · have huv : ¬ matchesEdge u v e := fun huv => hp (samePair_of_matches_both huv hab)
      have huv' : ¬ matchesEdge u v (e.1, e.2.1, r) := huv
      simp [setEdge, if_pos hab, getEdge, if_neg huv, if_neg huv']
    · simp only [setEdge, if_neg hab, getEdge]
      by_cases huv : matchesEdge u v e
      · simp [if_pos huv]
      · simp [if_neg huv, getEdge_setEdge_other rest u v a b r hp]

theorem getEdge_mem :
    ∀ (es : List EdgeEntry) (u v : String) (e : EdgeEntry),
    getEdge es u v = some e → e ∈ es ∧ matchesEdge u v e
  | [], _, _, _, h => by simp [getEdge] at h
  | e' :: rest, u, v, e, h => by
    by_cases huv : matchesEdge u v e'
    · simp only [getEdge, if_pos huv, Option.some.injEq] at h
      subst h
      exact ⟨List.mem_cons_self _ _, huv⟩
    · simp only [getEdge, if_neg huv] at h
      have := getEdge_mem rest u v e h
      exact ⟨List.mem_cons_of_mem _ this.1, this.2⟩

theorem getEdge_isSome_of_mem :
    ∀ (es : List EdgeEntry) (u v : String) (e : EdgeEntry),
    e ∈ es → matchesEdge u v e → (getEdge es u v).isSome
  | [], _, _, _, h, _ => absurd h (List.not_mem_nil _)
  | e' :: rest, u, v, e, h, hm => by
    by_cases huv : matchesEdge u v e'
    · simp [getEdge, if_pos huv]
    · simp only [getEdge, if_neg huv]
      rcases List.mem_cons.mp h with rfl | h'
      · exact absurd hm huv
      · exact getEdge_isSome_of_mem rest u v e h' hm

theorem setEdge_endpoints :
    ∀ (es : List EdgeEntry) (a b r : String) (e : EdgeEntry), e ∈ es →
    ∃ e' ∈ setEdge es a b r, e'.1 = e.1 ∧ e'.2.1 = e.2.1
  | [], _, _, _, _, h => absurd h (List.not_mem_nil _)
  | e' :: rest, a, b, r, e, h => by
    by_cases hab : matchesEdge a b e'
    · simp only [setEdge, if_pos hab]
      rcases List.mem_cons.mp h with rfl | h'
      · exact ⟨(e.1, e.2.1, r), List.mem_cons_self _ _, rfl, rfl⟩
      · exact ⟨e, List.mem_cons_of_mem _ h', rfl, rfl⟩
    · simp only [setEdge, if_neg hab]
      rcases List.mem_cons.mp h with rfl | h'
      · exact ⟨e, List.mem_cons_self _ _, rfl, rfl⟩
      · obtain ⟨e'', he'', h1, h2⟩ := setEdge_endpoints rest a b r e h'
        exact ⟨e'', List.mem_cons_of_mem _ he'', h1, h2⟩

/-! ### Graph-level lemmas -/

theorem hasNode_addNode_self (G : Graph) (k kind lbl : String) :
    (G.addNode k kind lbl).hasNode k = true := by
  simp [Graph.addNode, Graph.hasNode, lookup_setNode_self]

theorem hasNode_addNode_mono (G : Graph) (k kind lbl k' : String)
    (h : G.hasNode k' = true) : (G.addNode k kind lbl).hasNode k' = true := by
  simpa [Graph.addNode, Graph.hasNode] using
    lookup_setNode_isSome_mono G.nodes k _ k' (by simpa [Graph.hasNode] using h)

theorem hasNode_addNode_inv (G : Graph) (k kind lbl k' : String)
    (h : (G.addNode k kind lbl).hasNode k' = true) :
    G.hasNode k' = true ∨ k' = k := by
  simp only [Graph.addNode, Graph.hasNode] at h ⊢
  simpa using lookup_setNode_inv G.nodes k _ k' (by simpa using h)

theorem kindOf_addNode_self (G : Graph) (k kind lbl : String) :
    (G.addNode k kind lbl).kindOf k = some kind := by
  simp [Graph.addNode, Graph.kindOf, lookup_setNode_self]

theorem kindOf_addNode_ne (G : Graph) (k kind lbl k' : String) (h : k' ≠ k) :
    (G.addNode k kind lbl).kindOf k' = G.kindOf k' := by
  simp [Graph.addNode, Graph.kindOf, lookup_setNode_ne G.nodes k _ k' h]

theorem hasNode_addEdge_mono (G : Graph) (u v r k : String)
    (h : G.hasNode k = true) : (G.addEdge u v r).hasNode k = true := by
  simp only [Graph.addEdge, Graph.hasNode] at h ⊢
  exact lookup_ensure_isSome_mono _ v k (lookup_ensure_isSome_mono G.nodes u k h)

theorem hasNode_addEdge_self_left (G : Graph) (u v r : String) :
    (G.addEdge u v r).hasNode u = true := by
  simp only [Graph.addEdge, Graph.hasNode]
  exact lookup_ensure_isSome_mono _ v u (lookup_ensure_self G.nodes u)

theorem hasNode_addEdge_self_right (G : Graph) (u v r : String) :
    (G.addEdge u v r).hasNode v = true := by
  simp only [Graph.addEdge, Graph.hasNode]
  exact lookup_ensure_self _ v

theorem hasNode_addEdge_inv (G : Graph) (u v r k : String)
    (h : (G.addEdge u v r).hasNode k = true) :
    G.hasNode k = true ∨ k = u ∨ k = v := by
  simp only [Graph.addEdge, Graph.hasNode] at h ⊢
  rcases lookup_ensure_inv _ v k (by simpa using h) with h' | rfl
  · rcases lookup_ensure_inv G.nodes u k h' with h'' | rfl
    · simp [h'']
    · simp
  · simp

theorem kindOf_addEdge (G : Graph) (u v r k : String) :
    (G.addEdge u v r).kindOf k = G.kindOf k := by
  simp only [Graph.addEdge, Graph.kindOf]
  rw [kind_lookup_ensure _ v k, kind_lookup_ensure G.nodes u k]

theorem relOf_addNode (G : Graph) (k kind lbl u v : String) :
    (G.addNode k kind lbl).relOf u v = G.relOf u v := rfl

theorem Adj_addNode (G : Graph) (k kind lbl u v : String) :
    (G.addNode k kind lbl).Adj u v ↔ G.Adj u v := Iff.rfl

theorem relOf_addEdge_self (G : Graph) (u v r : String) :
    (G.addEdge u v r).relOf u v = some r := by
  simpa [Graph.addEdge, Graph.relOf] using getEdge_rel_setEdge_self G.edges u v r

theorem relOf_addEdge_other (G : Graph) (u v a b r : String)
    (h : ¬ samePair u v a b) : (G.addEdge a b r).relOf u v = G.relOf u v := by
  simp [Graph.addEdge, Graph.relOf, getEdge_setEdge_other G.edges u v a b r h]

theorem relOf_symm (G : Graph) (u v : String) : G.relOf u v = G.relOf v u := by
  have : ∀ es, getEdge es u v = getEdge es v u := by
    intro es
    induction es with
    | nil => rfl
    | cons e rest ih =>
      by_cases h : matchesEdge u v e
      · have h' : matchesEdge v u e := by
          rw [matchesEdge_eq] at h ⊢
          exact samePair_symm h
        simp [getEdge, if_pos h, if_pos h']
      · have h' : ¬ matchesEdge v u e := by
          rw [matchesEdge_eq] at h ⊢
          intro hc
          exact h (samePair_symm hc)
        simp [getEdge, if_neg h, if_neg h', ih]
  simp [Graph.relOf, this]

theorem relOf_addEdge_samePair (G : Graph) (u v a b r : String)
    (h : samePair u v a b) : (G.addEdge a b r).relOf u v = some r := by
  rcases h with ⟨h1, h2⟩ | ⟨h1, h2⟩
  · rw [h1, h2]
    exact relOf_addEdge_self G u v r
  · rw [h1, h2, relOf_symm]
    exact relOf_addEdge_self G v u r

theorem Adj_iff_relOf (G : Graph) (u v : String) :
    G.Adj u v ↔ (G.relOf u v).isSome := by
  constructor
  · rintro ⟨e, he, hm⟩
    simpa [Graph.relOf] using getEdge_isSome_of_mem G.edges u v e he hm
  · intro h
    rcases hg : getEdge G.edges u v with _ | e
    · simp [Graph.relOf, hg] at h
    · obtain ⟨hmem, hm⟩ := getEdge_mem G.edges u v e hg
      exact ⟨e, hmem, hm⟩

theorem Adj_addEdge_self (G : Graph) (u v r : String) : (G.addEdge u v r).Adj u v := by
  rw [Adj_iff_relOf, relOf_addEdge_self]
  rfl

theorem Adj_addEdge_mono (G : Graph) (a b r u v : String) (h : G.Adj u v) :
    (G.addEdge a b r).Adj u v := by
  obtain ⟨e, he, hm⟩ := h
  obtain ⟨e', he', h1, h2⟩ := setEdge_endpoints G.edges a b r e he
  refine ⟨e', he', ?_⟩
  rw [matchesEdge_eq, h1, h2]
  exact hm

theorem Adj_symm (G : Graph) (u v : String) (h : G.Adj u v) : G.Adj v u := by
  obtain ⟨e, he, hm⟩ := h
  exact ⟨e, he, samePair_symm hm⟩

theorem Reach_mono (G G' : Graph) (h : ∀ x y, G.Adj x y → G'.Adj x y)
    (a b : String) (hr : G.Reach a b) : G'.Reach a b :=
  Relation.ReflTransGen.mono h hr

/-! ### Connectivity through the module node -/

/-- Every node of the graph is reachable from `M`. -/
def Conn (M : String) (G : Graph) : Prop := ∀ k, G.hasNode k = true → G.Reach M k

theorem attach_child {M : String} {G : Graph} (p c kind lbl rel : String)
    (hC : Conn M G) (hp : G.Reach M p) :
    Conn M ((G.addNode c kind lbl).addEdge p c rel) := by
  intro k hk
  have hmono : ∀ x y, G.Adj x y → ((G.addNode c kind lbl).addEdge p c rel).Adj x y :=
    fun x y hxy => Adj_addEdge_mono _ p c rel x y ((Adj_addNode G c kind lbl x y).mpr hxy)
  have hreach_p : ((G.addNode c kind lbl).addEdge p c rel).Reach M p :=
    Reach_mono G _ hmono M p hp
  have hreach_c : ((G.addNode c kind lbl).addEdge p c rel).Reach M c :=
    hreach_p.tail (Adj_addEdge_self (G.addNode c kind lbl) p c rel)
  rcases hasNode_addEdge_inv _ p c rel k hk with hk' | rfl | rfl
  · rcases hasNode_addNode_inv G c kind lbl k hk' with hk'' | rfl
    · exact Reach_mono G _ hmono M k (hC k hk'')
    · exact hreach_c
  · exact hreach_p
  · exact hreach_c

theorem attach_edge {M : String} {G : Graph} (p c rel : String)
    (hC : Conn M G) (hp : G.Reach M p) : Conn M (G.addEdge p c rel) := by
  intro k hk
  have hmono : ∀ x y, G.Adj x y → (G.addEdge p c rel).Adj x y :=
    fun x y hxy => Adj_addEdge_mono G p c rel x y hxy
  have hreach_p : (G.addEdge p c rel).Reach M p := Reach_mono G _ hmono M p hp
  have hreach_c : (G.addEdge p c rel).Reach M c :=
    hreach_p.tail (Adj_addEdge_self G p c rel)
  rcases hasNode_addEdge_inv G p c rel k hk with hk' | rfl | rfl
  · exact Reach_mono G _ hmono M k (hC k hk')
  · exact hreach_p
  · exact hreach_c

theorem step1_conn (M : String) (st : Graph × VarTypes) (a : Ast)
    (h : Conn M st.1) : Conn M (step1 M st a).1 := by
  cases a with
  | ClassDef name body =>
    simp only [step1]
    have h1 : Conn M ((st.1.addNode name "class" name).addEdge M name "contains") :=
      attach_child M name "class" name "contains" h Relation.ReflTransGen.refl
    have h2 : ((st.1.addNode name "class" name).addEdge M name "contains").Reach M name :=
      Relation.ReflTransGen.single
        (Adj_addEdge_self (st.1.addNode name "class" name) M name "contains")
    have := foldl_preserve (fun G => Conn M G ∧ G.Reach M name)
      (fun G b =>
        match b with
        | .FunctionDef m _ =>
          let fl := name ++ "." ++ m ++ "()"
          (G.addNode fl "function" fl).addEdge name fl "method"
        | _ => G)
      body.toList _ ⟨h1, h2⟩ ?_
    · exact this.1
    · intro G b _ hG
      cases b with
      | FunctionDef m mb =>
        refine ⟨attach_child name (name ++ "." ++ m ++ "()") "function"
          (name ++ "." ++ m ++ "()") "method" hG.1 hG.2, ?_⟩
        refine Reach_mono G _ (fun x y hxy => ?_) M name hG.2
        exact Adj_addEdge_mono (G.addNode (name ++ "." ++ m ++ "()") "function"
            (name ++ "." ++ m ++ "()")) name (name ++ "." ++ m ++ "()") "method" x y
          ((Adj_addNode G (name ++ "." ++ m ++ "()") "function"
            (name ++ "." ++ m ++ "()") x y).mpr hxy)
      | _ => exact hG
  | FunctionDef name body =>
    simp only [step1]
    exact attach_child M _ "function" _ "contains" h Relation.ReflTransGen.refl
  | Assign targets value =>
    simp only [step1]
    refine foldl_preserve (fun st => Conn M st.1) _ targets.toList st h ?_
    intro st' b _ hst'
    cases b with
    | Name id => exact attach_child M id _ id "var" hst' Relation.ReflTransGen.refl
    | _ => exact hst'
  | AnnAssign target ann value =>
    cases target with
    | Name id =>
      simp only [step1]
      exact attach_child M id _ id "var" h Relation.ReflTransGen.refl
    | _ => simpa only [step1] using h
  | Call f args =>
    rcases hf : funcKeyOf f with _ | fn
    · simpa only [step1, hf] using h
    · simp only [step1, hf]
      have hcall : Conn M
          ((if st.1.hasNode fn then st.1 else st.1.addNode fn "function" fn).addEdge
            M fn "calls") := by
        by_cases hn : st.1.hasNode fn
        · simp only [if_pos hn]
          exact attach_edge M fn "calls" h Relation.ReflTransGen.refl
        · simp only [if_neg hn]
          exact attach_child M fn "function" fn "calls" h Relation.ReflTransGen.refl
      refine foldl_preserve (Conn M) _ args.toList _ hcall ?_
      intro G b _ hG
      cases b with
      | Name id =>
        by_cases hid : G.hasNode id
        · simp only [if_pos hid]
          exact attach_edge id fn "arg" hG (hG id hid)
        · simp only [if_neg hid]
          exact hG
      | _ => exact hG
  | _ => simpa only [step1] using h

theorem step1_hasNode_mono (M : String) (st : Graph × VarTypes) (a : Ast) (k : String)
    (h : st.1.hasNode k = true) : (step1 M st a).1.hasNode k = true := by
  cases a with
  | ClassDef name body =>
    simp only [step1]
    refine foldl_preserve (fun G : Graph => G.hasNode k = true) _ body.toList _ ?_ ?_
    · exact hasNode_addEdge_mono _ M name "contains" k
        (hasNode_addNode_mono st.1 name "class" name k h)
    · intro G b _ hG
      cases b with
      | FunctionDef m mb =>
        exact hasNode_addEdge_mono _ name _ "method" k
          (hasNode_addNode_mono G _ "function" _ k hG)
      | _ => exact hG
  | FunctionDef name body =>
    simp only [step1]
    exact hasNode_addEdge_mono _ M _ "contains" k
      (hasNode_addNode_mono st.1 _ "function" _ k h)
  | Assign targets value =>
    simp only [step1]
    refine foldl_preserve (fun st => st.1.hasNode k = true) _ targets.toList st h ?_
    intro st' b _ hst'
    cases b with
    | Name id =>
      exact hasNode_addEdge_mono _ M id "var" k
        (hasNode_addNode_mono st'.1 id _ id k hst')
    | _ => exact hst'
  | AnnAssign target ann value =>
    cases target with
    | Name id =>
      simp only [step1]
      exact hasNode_addEdge_mono _ M id "var" k
        (hasNode_addNode_mono st.1 id _ id k h)
    | _ => simpa only [step1] using h
  | Call f args =>
    rcases hf : funcKeyOf f with _ | fn
    · simpa only [step1, hf] using h
    · simp only [step1, hf]
      refine foldl_preserve (fun G : Graph => G.hasNode k = true) _ args.toList _ ?_ ?_
      · refine hasNode_addEdge_mono _ M fn "calls" k ?_
        by_cases hn : st.1.hasNode fn
        · simpa only [if_pos hn] using h
        · simp only [if_neg hn]
          exact hasNode_addNode_mono st.1 fn "function" fn k h
      · intro G b _ hG
        cases b with
        | Name id =>
          by_cases hid : G.hasNode id
          · simp only [if_pos hid]
            exact hasNode_addEdge_mono G id fn "arg" k hG
          · simp only [if_neg hid]
            exact hG
        | _ => exact hG
  | _ => simpa only [step1] using h

theorem step2_hasNode_mono (G : Graph) (a : Ast) (k : String)
    (h : G.hasNode k = true) : (step2 G a).hasNode k = true := by
  cases a with
  | Assign targets value =>
    cases value with
    | DictLit keys values =>
      simp only [step2]
      refine foldl_preserve (fun G : Graph => G.hasNode k = true) _ targets.toList G h ?_
      intro G' b _ hG'
      cases b with
      | Name parent =>
        refine foldl_preserve (fun G : Graph => G.hasNode k = true) _ _ G' hG' ?_
        intro G'' kv _ hG''
        exact hasNode_addEdge_mono _ parent _ "dict-item" k
          (hasNode_addNode_mono G'' _ _ _ k hG'')
      | _ => exact hG'
    | ListLit elts =>
      simp only [step2]
      refine foldl_preserve (fun G : Graph => G.hasNode k = true) _ targets.toList G h ?_
      intro G' b _ hG'
      cases b with
      | Name parent =>
        refine foldl_preserve (fun G : Graph => G.hasNode k = true) _ _ G' hG' ?_
        intro G'' ie _ hG''
        exact hasNode_addEdge_mono _ parent _ "seq-item" k
          (hasNode_addNode_mono G'' _ _ _ k hG'')
      | _ => exact hG'
    | SetLit elts =>
      simp only [step2]
      refine foldl_preserve (fun G : Graph => G.hasNode k = true) _ targets.toList G h ?_
      intro G' b _ hG'
      cases b with
      | Name parent =>
        refine foldl_preserve (fun G : Graph => G.hasNode k = true) _ _ G' hG' ?_
        intro G'' ie _ hG''
        exact hasNode_addEdge_mono _ parent _ "seq-item" k
          (hasNode_addNode_mono G'' _ _ _ k hG'')
      | _ => exact hG'
    | TupleLit elts =>
      simp only [step2]
      refine foldl_preserve (fun G : Graph => G.hasNode k = true) _ targets.toList G h ?_
      intro G' b _ hG'
      cases b with
      | Name parent =>
        refine foldl_preserve (fun G : Graph => G.hasNode k = true) _ _ G' hG' ?_
        intro G'' ie _ hG''
        exact hasNode_addEdge_mono _ parent _ "seq-item" k
          (hasNode_addNode_mono G'' _ _ _ k hG'')
      | _ => exact hG'
    | _ => simpa only [step2] using h
  | _ => simpa only [step2] using h

theorem conn_expand {M : String} {β : Type} (parent rel : String)
    (key kind : β → String) :
    ∀ (items : List β) (G : Graph), Conn M G → G.hasNode parent = true →
    Conn M (items.foldl
      (fun G it => (G.addNode (key it) (kind it) (key it)).addEdge parent (key it) rel) G) ∧
    ∀ k, G.hasNode k = true →
      (items.foldl
        (fun G it => (G.addNode (key it) (kind it) (key it)).addEdge parent (key it) rel)
        G).hasNode k = true
  | [], G, hG, _ => ⟨hG, fun _ hk => hk⟩
  | it :: items, G, hG, hp => by
    simp only [List.foldl_cons]
    have hG1 : Conn M ((G.addNode (key it) (kind it) (key it)).addEdge parent (key it) rel) :=
      attach_child parent (key it) (kind it) (key it) rel hG (hG parent hp)
    have hmono : ∀ k, G.hasNode k = true →
        ((G.addNode (key it) (kind it) (key it)).addEdge parent (key it) rel).hasNode k = true :=
      fun k hk => hasNode_addEdge_mono _ parent (key it) rel k
        (hasNode_addNode_mono G (key it) (kind it) (key it) k hk)
    obtain ⟨h1, h2⟩ := conn_expand parent rel key kind items _ hG1 (hmono parent hp)
    exact ⟨h1, fun k hk => h2 k (hmono k hk)⟩

theorem step2_conn (M : String) (G : Graph) (a : Ast) (h : Conn M G)
    (hpres : ∀ targets value, a = .Assign targets value →
      ∀ p, Ast.Name p ∈ targets.toList → G.hasNode p = true) :
    Conn M (step2 G a) := by
  cases a with
  | Assign targets value =>
    have hpres' : ∀ p, Ast.Name p ∈ targets.toList → G.hasNode p = true :=
      hpres targets value rfl
    cases value with
    | DictLit keys values =>
      simp only [step2]
      refine (foldl_preserve
        (fun G' : Graph => Conn M G' ∧
          ∀ p, Ast.Name p ∈ targets.toList → G'.hasNode p = true)
        _ targets.toList G ⟨h, hpres'⟩ ?_).1
      intro G' b hb hG'
      cases b with
      | Name parent =>
        obtain ⟨h1, h2⟩ := conn_expand parent "dict-item"
          (fun kv : Ast × Ast => parent ++ "." ++ unparse kv.1)
          (fun kv : Ast × Ast => guess_type kv.2)
          (keys.toList.zip values.toList) G' hG'.1 (hG'.2 parent hb)
        exact ⟨h1, fun p hp => h2 p (hG'.2 p hp)⟩
      | _ => exact hG'
    | ListLit elts =>
      simp only [step2]
      refine (foldl_preserve
        (fun G' : Graph => Conn M G' ∧
          ∀ p, Ast.Name p ∈ targets.toList → G'.hasNode p = true)
        _ targets.toList G ⟨h, hpres'⟩ ?_).1
      intro G' b hb hG'
      cases b with
      | Name parent =>
        obtain ⟨h1, h2⟩ := conn_expand parent "seq-item"
          (fun ie : Nat × Ast => parent ++ "[" ++ toString ie.1 ++ "]")
          (fun ie : Nat × Ast => guess_type ie.2)
          elts.toList.enum G' hG'.1 (hG'.2 parent hb)
        exact ⟨h1, fun p hp => h2 p (hG'.2 p hp)⟩
      | _ => exact hG'
    | SetLit elts =>
      simp only [step2]
      refine (foldl_preserve
        (fun G' : Graph => Conn M G' ∧
          ∀ p, Ast.Name p ∈ targets.toList → G'.hasNode p = true)
        _ targets.toList G ⟨h, hpres'⟩ ?_).1
      intro G' b hb hG'
      cases b with
      | Name parent =>
        obtain ⟨h1, h2⟩ := conn_expand parent "seq-item"
          (fun ie : Nat × Ast => parent ++ "[" ++ toString ie.1 ++ "]")
          (fun ie : Nat × Ast => guess_type ie.2)
          elts.toList.enum G' hG'.1 (hG'.2 parent hb)
        exact ⟨h1, fun p hp => h2 p (hG'.2 p hp)⟩
      | _ => exact hG'
    | TupleLit elts =>
      simp only [step2]
      refine (foldl_preserve
        (fun G' : Graph => Conn M G' ∧
          ∀ p, Ast.Name p ∈ targets.toList → G'.hasNode p = true)
        _ targets.toList G ⟨h, hpres'⟩ ?_).1
      intro G' b hb hG'
      cases b with
      | Name parent =>
        obtain ⟨h1, h2⟩ := conn_expand parent "seq-item"
          (fun ie : Nat × Ast => parent ++ "[" ++ toString ie.1 ++ "]")
          (fun ie : Nat × Ast => guess_type ie.2)
          elts.toList.enum G' hG'.1 (hG'.2 parent hb)
        exact ⟨h1, fun p hp => h2 p (hG'.2 p hp)⟩
      | _ => exact hG'
    | _ => simpa only [step2] using h
  | _ => simpa only [step2] using h

theorem step1_adds_assign_targets (M : String) (st : Graph × VarTypes)
    (targets : AstList) (value : Ast) (p : String) (hp : Ast.Name p ∈ targets.toList) :
    (step1 M st (.Assign targets value)).1.hasNode p = true := by
  simp only [step1]
  refine foldl_achieve (fun st => st.1.hasNode p = true) _ targets.toList st
    (.Name p) hp ?_ ?_
  · intro st'
    exact hasNode_addEdge_mono _ M p "var" p (hasNode_addNode_self st'.1 p _ p)
  · intro st' b _ hst'
    cases b with
    | Name id =>
      exact hasNode_addEdge_mono _ M id "var" p
        (hasNode_addNode_mono st'.1 id _ id p hst')
    | _ => exact hst'

theorem build_graph_conn (p : String) (t : Ast) :
    Conn (basename p) (build_graph p t) := by
  simp only [build_graph]
  have h0 : Conn (basename p) (Graph.empty.addNode (basename p) "module" (basename p)) := by
    intro k hk
    rcases hasNode_addNode_inv Graph.empty (basename p) "module" (basename p) k hk with h' | rfl
    · simp [Graph.hasNode, Graph.empty, lookupNode] at h'
    · exact Relation.ReflTransGen.refl
  have h1 : Conn (basename p)
      (List.foldl (step1 (basename p))
        (Graph.empty.addNode (basename p) "module" (basename p), ([] : VarTypes))
        (walk t)).1 :=
    foldl_preserve (fun st : Graph × VarTypes => Conn (basename p) st.1) _ (walk t) _ h0
      (fun st a _ h => step1_conn (basename p) st a h)
  have hpres : ∀ a ∈ walk t, ∀ targets value, a = .Assign targets value →
      ∀ q, Ast.Name q ∈ targets.toList →
      (List.foldl (step1 (basename p))
        (Graph.empty.addNode (basename p) "module" (basename p), ([] : VarTypes))
        (walk t)).1.hasNode q = true := by
    intro a ha targets value haeq q hq
    subst haeq
    exact foldl_achieve (fun st : Graph × VarTypes => st.1.hasNode q = true) _ (walk t) _ _ ha
      (fun st => step1_adds_assign_targets (basename p) st targets value q hq)
      (fun st b _ h => step1_hasNode_mono (basename p) st b q h)
  refine (foldl_preserve
    (fun G : Graph => Conn (basename p) G ∧ ∀ a ∈ walk t, ∀ targets value,
      a = .Assign targets value → ∀ q, Ast.Name q ∈ targets.toList →
      G.hasNode q = true)
    _ (walk t) _ ⟨h1, hpres⟩ ?_).1
  intro G a ha hG
  refine ⟨step2_conn (basename p) G a hG.1
    (fun targets value he q hq => hG.2 a ha targets value he q hq), ?_⟩
  intro a2 ha2 targets value he q hq
  exact step2_hasNode_mono G a q (hG.2 a2 ha2 targets value he q hq)

theorem build_graph_hasNode_module (p : String) (t : Ast) :
    (build_graph p t).hasNode (basename p) = true := by
  simp only [build_graph]
  have h0 : ((Graph.empty.addNode (basename p) "module" (basename p),
      ([] : VarTypes)) : Graph × VarTypes).1.hasNode (basename p) = true :=
    hasNode_addNode_self Graph.empty (basename p) _ _
  have h1 := foldl_preserve
    (fun st : Graph × VarTypes => st.1.hasNode (basename p) = true) (step1 (basename p))
    (walk t) _ h0 (fun st a _ h => step1_hasNode_mono (basename p) st a (basename p) h)
  exact foldl_preserve (fun G : Graph => G.hasNode (basename p) = true) step2 (walk t) _ h1
    (fun G a _ h => step2_hasNode_mono G a (basename p) h)

/-! ### Generic preservation through the builder -/

theorem step1_preserve (P : Graph → Prop)
    (hN : ∀ G k kind lbl, P G → P (G.addNode k kind lbl))
    (hE : ∀ G u v r, P G → P (G.addEdge u v r)) :
    ∀ (M : String) (st : Graph × VarTypes) (a : Ast), P st.1 → P (step1 M st a).1 := by
  intro M st a h
  cases a with
  | ClassDef name body =>
    simp only [step1]
    refine foldl_preserve P _ body.toList _ (hE _ M name "contains" (hN _ name _ name h)) ?_
    intro G b _ hG
    cases b with
    | FunctionDef m mb => exact hE _ name _ "method" (hN _ _ _ _ hG)
    | _ => exact hG
  | FunctionDef name body =>
    simp only [step1]
    exact hE _ M _ "contains" (hN _ _ _ _ h)
  | Assign targets value =>
    simp only [step1]
    refine foldl_preserve (fun st : Graph × VarTypes => P st.1) _ targets.toList st h ?_
    intro st' b _ hst'
    cases b with
    | Name id => exact hE _ M id "var" (hN _ id _ id hst')
    | _ => exact hst'
  | AnnAssign target ann value =>
    cases target with
    | Name id =>
      simp only [step1]
      exact hE _ M id "var" (hN _ id _ id h)
    | _ => simpa only [step1] using h
  | Call f args =>
    rcases hf : funcKeyOf f with _ | fn
    · simpa only [step1, hf] using h
    · simp only [step1, hf]
      refine foldl_preserve P _ args.toList _ ?_ ?_
      · refine hE _ M fn "calls" ?_
        by_cases hn : st.1.hasNode fn
        · simpa only [if_pos hn] using h
        · simp only [if_neg hn]
          exact hN _ fn "function" fn h
      · intro G b _ hG
        cases b with
        | Name id =>
          by_cases hid : G.hasNode id
          · simp only [if_pos hid]
            exact hE G id fn "arg" hG
          · simp only [if_neg hid]
            exact hG
        | _ => exact hG
  | _ => simpa only [step1] using h

theorem step2_preserve (P : Graph → Prop)
    (hN : ∀ G k kind lbl, P G → P (G.addNode k kind lbl))
    (hE : ∀ G u v r, P G → P (G.addEdge u v r)) :
    ∀ (G : Graph) (a : Ast), P G → P (step2 G a) := by
  intro G a h
  cases a with
  | Assign targets value =>
    cases value with
    | DictLit keys values =>
      simp only [step2]
      refine foldl_preserve P _ targets.toList G h ?_
      intro G' b _ hG'
      cases b with
      | Name parent =>
        refine foldl_preserve P _ _ G' hG' ?_
        intro G'' kv _ hG''
        exact hE _ parent _ "dict-item" (hN _ _ _ _ hG'')
      | _ => exact hG'
    | ListLit elts =>
      simp only [step2]
      refine foldl_preserve P _ targets.toList G h ?_
      intro G' b _ hG'
      cases b with
      | Name parent =>
        refine foldl_preserve P _ _ G' hG' ?_
        intro G'' ie _ hG''
        exact hE _ parent _ "seq-item" (hN _ _ _ _ hG'')
      | _ => exact hG'
    | SetLit elts =>
      simp only [step2]
      refine foldl_preserve P _ targets.toList G h ?_
      intro G' b _ hG'
      cases b with
      | Name parent =>
        refine foldl_preserve P _ _ G' hG' ?_
        intro G'' ie _ hG''
        exact hE _ parent _ "seq-item" (hN _ _ _ _ hG'')
      | _ => exact hG'
    | TupleLit elts =>
      simp only [step2]
      refine foldl_preserve P _ targets.toList G h ?_
      intro G' b _ hG'
      cases b with
      | Name parent =>
        refine foldl_preserve P _ _ G' hG' ?_
        intro G'' ie _ hG''
        exact hE _ parent _ "seq-item" (hN _ _ _ _ hG'')
      | _ => exact hG'
    | _ => simpa only [step2] using h
  | _ => simpa only [step2] using h

theorem build_graph_preserve (P : Graph → Prop)
    (hN : ∀ G k kind lbl, P G → P (G.addNode k kind lbl))
    (hE : ∀ G u v r, P G → P (G.addEdge u v r))
    (p : String) (t : Ast)
    (h0 : P (Graph.empty.addNode (basename p) "module" (basename p))) :
    P (build_graph p t) := by
  simp only [build_graph]
  have h1 := foldl_preserve (fun st : Graph × VarTypes => P st.1) (step1 (basename p))
    (walk t)
    ((Graph.empty.addNode (basename p) "module" (basename p), ([] : VarTypes)))
    h0 (fun st a _ h => step1_preserve P hN hE (basename p) st a h)
  exact foldl_preserve P step2 (walk t) _ h1
    (fun G a _ h => step2_preserve P hN hE G a h)

theorem build_graph_achieve (P : Graph → Prop)
    (hN : ∀ G k kind lbl, P G → P (G.addNode k kind lbl))
    (hE : ∀ G u v r, P G → P (G.addEdge u v r))
    (p : String) (t : Ast) (a₀ : Ast) (ha₀ : a₀ ∈ walk t)
    (hach : ∀ st : Graph × VarTypes, P (step1 (basename p) st a₀).1) :
    P (build_graph p t) := by
  simp only [build_graph]
  have h1 := foldl_achieve (fun st : Graph × VarTypes => P st.1) (step1 (basename p))
    (walk t)
    ((Graph.empty.addNode (basename p) "module" (basename p), ([] : VarTypes)))
    a₀ ha₀ hach (fun st a _ h => step1_preserve P hN hE (basename p) st a h)
  exact foldl_preserve P step2 (walk t) _ h1
    (fun G a _ h => step2_preserve P hN hE G a h)

/-! ### At most one edge entry per unordered pair -/

/-- Number of edge entries joining `u` and `v`. -/
def edgeCount (G : Graph) (u v : String) : Nat :=
  G.edges.countP (fun e => decide (matchesEdge u v e))

theorem countP_congr_samePair (u v a b : String) (hp : samePair u v a b) :
    ∀ es : List EdgeEntry,
    es.countP (fun e => decide (matchesEdge u v e)) =
    es.countP (fun e => decide (matchesEdge a b e))
  | [] => rfl
  | e :: es => by
    have hiff : matchesEdge u v e ↔ matchesEdge a b e :=
      ⟨fun h => matches_of_matches_of_samePair
        (by rcases hp with ⟨h1, h2⟩ | ⟨h1, h2⟩
            · exact Or.inl ⟨h1.symm, h2.symm⟩
            · exact Or.inr ⟨h2.symm, h1.symm⟩) h,
       fun h => matches_of_matches_of_samePair hp h⟩
    rw [List.countP_cons, List.countP_cons, countP_congr_samePair u v a b hp es]
    congr 1
    by_cases h : matchesEdge a b e
    · simp [h, hiff.mpr h]
    · have h2 : ¬ matchesEdge u v e := fun hc => h (hiff.mp hc)
      simp [h, h2]

theorem countP_setEdge_other (u v a b r : String) (hp : ¬ samePair u v a b) :
    ∀ es : List EdgeEntry,
    (setEdge es a b r).countP (fun e => decide (matchesEdge u v e)) =
    es.countP (fun e => decide (matchesEdge u v e))
  | [] => by
    have : ¬ matchesEdge u v ((a, b, r) : EdgeEntry) := fun h => hp h
    simp [setEdge, List.countP_cons, this]
  | e :: es => by
    by_cases hab : matchesEdge a b e
    · have huv : ¬ matchesEdge u v e :=
        fun huv => hp (samePair_of_matches_both huv hab)
      have huv2 : ¬ matchesEdge u v ((e.1, e.2.1, r) : EdgeEntry) := huv
      simp [setEdge, if_pos hab, List.countP_cons, huv, huv2]
    · simp [setEdge, if_neg hab, List.countP_cons,
        countP_setEdge_other u v a b r hp es]

theorem countP_setEdge_self_le (u v r : String) :
    ∀ es : List EdgeEntry,
    es.countP (fun e => decide (matchesEdge u v e)) ≤ 1 →
    (setEdge es u v r).countP (fun e => decide (matchesEdge u v e)) ≤ 1
  | [], _ => by
    have : matchesEdge u v ((u, v, r) : EdgeEntry) := Or.inl ⟨rfl, rfl⟩
    simp [setEdge, List.countP_cons, this]
  | e :: es, h => by
    by_cases huv : matchesEdge u v e
    · have h2 : matchesEdge u v ((e.1, e.2.1, r) : EdgeEntry) := huv
      simp only [setEdge, if_pos huv]
      simp [List.countP_cons, huv, h2] at h ⊢
      exact h
    · simp only [setEdge, if_neg huv]
      simp [List.countP_cons, huv] at h ⊢
      exact countP_setEdge_self_le u v r es h

theorem edgeCount_addNode (G : Graph) (k kind lbl u v : String) :
    edgeCount (G.addNode k kind lbl) u v = edgeCount G u v := rfl

theorem edgeCount_addEdge_le (G : Graph) (a b r u v : String)
    (h : edgeCount G u v ≤ 1) : edgeCount (G.addEdge a b r) u v ≤ 1 := by
  by_cases hp : samePair u v a b
  · unfold edgeCount Graph.addEdge
    simp only
    rw [countP_congr_samePair u v a b hp]
    refine countP_setEdge_self_le a b r G.edges ?_
    rw [← countP_congr_samePair u v a b hp]
    exact h
  · unfold edgeCount Graph.addEdge
    simp only
    rw [countP_setEdge_other u v a b r hp]
    exact h

theorem build_graph_edgesOnce (p : String) (t : Ast) (u v : String) :
    edgeCount (build_graph p t) u v ≤ 1 := by
  refine build_graph_preserve (fun G => edgeCount G u v ≤ 1) ?_ ?_ p t ?_
  · intro G k kind lbl h
    rw [edgeCount_addNode]
    exact h
  · intro G a b r h
    exact edgeCount_addEdge_le G a b r u v h
  · simp [edgeCount, Graph.addNode, Graph.empty]

/-! ### Exact tracking of a variable node's kind and module edge -/

/-- Is `t` the bare name `x`? -/
def isNameOf (x : String) (t : Ast) : Bool :=
  match t with
  | .Name y => y == x
  | _ => false

/-- The kind that the assignment branches of the walk write to the node `x`
when processing `a`, if `a` assigns to the bare name `x`. -/
def assignKindOf (x : String) : Ast → Option String
  | .Assign targets value =>
    if targets.toList.any (isNameOf x) then some (guess_type value) else none
  | .AnnAssign target ann value =>
    match target with
    | .Name y => if y = x then some (annAssignKind ann value) else none
    | _ => none
  | _ => none

/-- Keys written by the non-assignment branches of the two traversals while
processing one walk event: class names, method keys, function keys, callee
keys, and container-item child keys. -/
def nonVarKeys : Ast → List String
  | .ClassDef name body =>
    name :: body.toList.filterMap (fun b =>
      match b with
      | .FunctionDef m _ => some (name ++ "." ++ m ++ "()")
      | _ => none)
  | .FunctionDef name _ => [name ++ "()"]
  | .Call f _ => (funcKeyOf f).toList
  | .Assign targets value =>
    match value with
    | .DictLit keys values =>
      (targets.toList.map (fun tgt =>
        match tgt with
        | .Name parent => (keys.toList.zip values.toList).map
            (fun kv => parent ++ "." ++ unparse kv.1)
        | _ => [])).flatten
    | .ListLit elts | .SetLit elts | .TupleLit elts =>
      (targets.toList.map (fun tgt =>
        match tgt with
        | .Name parent => elts.toList.enum.map
            (fun ie => parent ++ "[" ++ toString ie.1 ++ "]")
        | _ => [])).flatten
    | _ => []
  | _ => []

/-- The pair observed for variable `x`: its `kind` attribute and the
relation of the module edge. -/
def varObs (M x : String) (G : Graph) : Option String × Option String :=
  (G.kindOf x, G.relOf M x)

theorem not_samePair_fst {M x p c : String} (hc : c ≠ x) (hp : p ≠ x) :
    ¬ samePair M x p c := by
  rintro (⟨h1, h2⟩ | ⟨h1, h2⟩)
  · exact hc h2
  · exact hp h1

theorem not_samePair_snd {M x p c : String} (hc : c ≠ x) (hcM : c ≠ M) :
    ¬ samePair M x p c := by
  rintro (⟨h1, h2⟩ | ⟨h1, h2⟩)
  · exact hc h2
  · exact hcM h2

theorem varObs_addNode_ne (M x : String) (G : Graph) (k kind lbl : String)
    (h : k ≠ x) : varObs M x (G.addNode k kind lbl) = varObs M x G := by
  unfold varObs
  rw [kindOf_addNode_ne G k kind lbl x (fun hh => h hh.symm), relOf_addNode]

theorem varObs_addEdge_ne (M x : String) (G : Graph) (u v r : String)
    (h : ¬ samePair M x u v) : varObs M x (G.addEdge u v r) = varObs M x G := by
  unfold varObs
  rw [kindOf_addEdge, relOf_addEdge_other G M x u v r h]

theorem varObs_write (M x kind lbl : String) (G : Graph) :
    varObs M x ((G.addNode x kind lbl).addEdge M x "var") = (some kind, some "var") := by
  unfold varObs
  rw [kindOf_addEdge, kindOf_addNode_self, relOf_addEdge_self]

theorem assign_fold_obs (M x vt : String) (hxM : x ≠ M) :
    ∀ (tgts : List Ast) (st : Graph × VarTypes),
    varObs M x (tgts.foldl (fun st tgt =>
      match tgt with
      | .Name id => ((st.1.addNode id vt id).addEdge M id "var", setVar st.2 id vt)
      | _ => st) st).1 =
    if tgts.any (isNameOf x) then (some vt, some "var") else varObs M x st.1
  | [], st => by simp
  | tgt :: tgts, st => by
    rw [List.foldl_cons, assign_fold_obs M x vt hxM tgts]
    cases tgt with
    | Name y =>
      by_cases hy : y = x
      · subst hy
        have hname : isNameOf y (Ast.Name y) = true := by simp [isNameOf]
        simp only [List.any_cons, hname, Bool.true_or, if_pos rfl]
        by_cases hany : tgts.any (isNameOf y) = true
        · simp [hany]
        · simp only [Bool.not_eq_true] at hany
          simp [hany, varObs_write M y vt y]
      · have h1 : isNameOf x (Ast.Name y) = false := by
          simp [isNameOf, hy]
        have h2 : varObs M x ((st.1.addNode y vt y).addEdge M y "var", setVar st.2 y vt).1 =
            varObs M x st.1 := by
          simp only
          rw [varObs_addEdge_ne M x _ M y "var"
            (not_samePair_fst hy (fun hh => hxM hh.symm)),
            varObs_addNode_ne M x _ y vt y hy]
        simp [h1, h2]
    | _ => simp [isNameOf]

theorem step1_varObs (M x : String) (hxM : x ≠ M) (a : Ast)
    (hxa : x ∉ nonVarKeys a) (hMa : M ∉ nonVarKeys a) (st : Graph × VarTypes) :
    varObs M x (step1 M st a).1 =
    match assignKindOf x a with
    | some k => (some k, some "var")
    | none => varObs M x st.1 := by
  cases a with
  | ClassDef name body =>
    simp only [nonVarKeys, List.mem_cons, not_or] at hxa
    simp only [step1, assignKindOf]
    refine foldl_preserve (fun G : Graph => varObs M x G = varObs M x st.1) _
      body.toList _ ?_ ?_
    · show varObs M x ((st.1.addNode name "class" name).addEdge M name "contains") =
        varObs M x st.1
      rw [varObs_addEdge_ne M x _ M name "contains"
        (not_samePair_fst (fun hh => hxa.1 hh.symm) (fun hh => hxM hh.symm)),
        varObs_addNode_ne M x _ name "class" name (fun hh => hxa.1 hh.symm)]
    · intro G b hb hG
      cases b with
      | FunctionDef m mb =>
        have hfl : (name ++ "." ++ m ++ "()") ≠ x := by
          intro hh
          exact hxa.2 (by
            refine List.mem_filterMap.mpr ⟨Ast.FunctionDef m mb, hb, ?_⟩
            simp [hh])
        rw [varObs_addEdge_ne M x _ name _ "method"
            (not_samePair_fst hfl (fun hh => hxa.1 hh.symm)),
          varObs_addNode_ne M x _ _ "function" _ hfl]
        exact hG
      | _ => exact hG
  | FunctionDef name body =>
    simp only [nonVarKeys, List.mem_singleton] at hxa
    simp only [step1, assignKindOf]
    rw [varObs_addEdge_ne M x _ M _ "contains"
        (not_samePair_fst (fun hh => hxa hh.symm) (fun hh => hxM hh.symm)),
      varObs_addNode_ne M x _ _ "function" _ (fun hh => hxa hh.symm)]
  | Assign targets value =>
    simp only [step1, assignKindOf]
    rw [assign_fold_obs M x (guess_type value) hxM targets.toList st]
    by_cases hany : targets.toList.any (isNameOf x) = true
    · simp [hany]
    · simp only [Bool.not_eq_true] at hany
      simp [hany]
  | AnnAssign target ann value =>
    cases target with
    | Name y =>
      simp only [step1, assignKindOf]
      by_cases hy : y = x
      · subst hy
        simp only [if_pos rfl]
        exact varObs_write M y _ y st.1
      · have h2 : varObs M x ((st.1.addNode y (annAssignKind ann value) y).addEdge
            M y "var") = varObs M x st.1 := by
          rw [varObs_addEdge_ne M x _ M y "var"
            (not_samePair_fst hy (fun hh => hxM hh.symm)),
            varObs_addNode_ne M x _ y _ y hy]
        simp [hy, h2]
    | _ => simp [step1, assignKindOf]
  | Call f args =>
    rcases hf : funcKeyOf f with _ | fn
    · simp [step1, hf, assignKindOf]
    · have hfn_x : fn ≠ x := by
        intro hh
        subst hh
        simp [nonVarKeys, hf] at hxa
      have hfn_M : fn ≠ M := by
        intro hh
        subst hh
        simp [nonVarKeys, hf] at hMa
      simp only [step1, hf, assignKindOf]
      refine foldl_preserve (fun G : Graph => varObs M x G = varObs M x st.1) _
        args.toList _ ?_ ?_
      · show varObs M x
          ((if st.1.hasNode fn = true then st.1 else st.1.addNode fn "function" fn).addEdge
            M fn "calls") = varObs M x st.1
        rw [varObs_addEdge_ne M x _ M fn "calls" (not_samePair_fst hfn_x
          (fun hh => hxM hh.symm))]
        by_cases hn : st.1.hasNode fn
        · simp [hn]
        · rw [if_neg hn]
          exact varObs_addNode_ne M x st.1 fn "function" fn hfn_x
      · intro G b hb hG
        cases b with
        | Name id =>
          by_cases hid : G.hasNode id
          · simp only [if_pos hid]
            rw [varObs_addEdge_ne M x G id fn "arg" (not_samePair_snd hfn_x hfn_M)]
            exact hG
          · simp only [if_neg hid]
            exact hG
        | _ => exact hG
  | _ => simp [step1, assignKindOf]

theorem expand_fold_varObs (M x parent rel : String) {β : Type}
    (key kind : β → String) (items : List β)
    (hkey_x : ∀ it ∈ items, key it ≠ x)
    (hkey_M : ∀ it ∈ items, key it ≠ M) (G : Graph) :
    varObs M x (items.foldl
      (fun G it => (G.addNode (key it) (kind it) (key it)).addEdge parent (key it) rel)
      G) = varObs M x G := by
  refine foldl_preserve (fun G' : Graph => varObs M x G' = varObs M x G) _ items G rfl ?_
  intro G' it hit hG'
  show varObs M x ((G'.addNode (key it) (kind it) (key it)).addEdge parent (key it) rel) =
    varObs M x G
  rw [varObs_addEdge_ne M x _ parent (key it) rel
      (not_samePair_snd (hkey_x it hit) (hkey_M it hit)),
    varObs_addNode_ne M x G' (key it) (kind it) (key it) (hkey_x it hit)]
  exact hG'

theorem step2_varObs (M x : String) (a : Ast)
    (hxa : x ∉ nonVarKeys a) (hMa : M ∉ nonVarKeys a) (G : Graph) :
    varObs M x (step2 G a) = varObs M x G := by
  cases a with
  | Assign targets value =>
    cases value with
    | DictLit keys values =>
      simp only [step2]
      refine foldl_preserve (fun G' : Graph => varObs M x G' = varObs M x G) _
        targets.toList G rfl ?_
      intro G' b hb hG'
      cases b with
      | Name parent =>
        have hmem : ∀ kv ∈ keys.toList.zip values.toList,
            (parent ++ "." ++ unparse kv.1) ∈
              nonVarKeys (Ast.Assign targets (Ast.DictLit keys values)) := by
          intro kv hkv
          simp only [nonVarKeys]
          refine List.mem_flatten.mpr ⟨(keys.toList.zip values.toList).map
            (fun kv => parent ++ "." ++ unparse kv.1), ?_, ?_⟩
          · exact List.mem_map.mpr ⟨Ast.Name parent, hb, rfl⟩
          · exact List.mem_map.mpr ⟨kv, hkv, rfl⟩
        rw [expand_fold_varObs M x parent "dict-item"
          (fun kv : Ast × Ast => parent ++ "." ++ unparse kv.1)
          (fun kv : Ast × Ast => guess_type kv.2)
          (keys.toList.zip values.toList)
          (fun kv hkv hh => hxa (hh ▸ hmem kv hkv))
          (fun kv hkv hh => hMa (hh ▸ hmem kv hkv)) G']
        exact hG'
      | _ => exact hG'
    | ListLit elts =>
      simp only [step2]
      refine foldl_preserve (fun G' : Graph => varObs M x G' = varObs M x G) _
        targets.toList G rfl ?_
      intro G' b hb hG'
      cases b with
      | Name parent =>
        have hmem : ∀ ie ∈ elts.toList.enum,
            (parent ++ "[" ++ toString ie.1 ++ "]") ∈
              nonVarKeys (Ast.Assign targets (Ast.ListLit elts)) := by
          intro ie hie
          simp only [nonVarKeys]
          refine List.mem_flatten.mpr ⟨elts.toList.enum.map
            (fun ie => parent ++ "[" ++ toString ie.1 ++ "]"), ?_, ?_⟩
          · exact List.mem_map.mpr ⟨Ast.Name parent, hb, rfl⟩
          · exact List.mem_map.mpr ⟨ie, hie, rfl⟩
        rw [expand_fold_varObs M x parent "seq-item"
          (fun ie : Nat × Ast => parent ++ "[" ++ toString ie.1 ++ "]")
          (fun ie : Nat × Ast => guess_type ie.2)
          elts.toList.enum
          (fun ie hie hh => hxa (hh ▸ hmem ie hie))
          (fun ie hie hh => hMa (hh ▸ hmem ie hie)) G']
        exact hG'
      | _ => exact hG'
    | SetLit elts =>
      simp only [step2]
      refine foldl_preserve (fun G' : Graph => varObs M x G' = varObs M x G) _
        targets.toList G rfl ?_
      intro G' b hb hG'
      cases b with
      | Name parent =>
        have hmem : ∀ ie ∈ elts.toList.enum,
            (parent ++ "[" ++ toString ie.1 ++ "]") ∈
              nonVarKeys (Ast.Assign targets (Ast.SetLit elts)) := by
          intro ie hie
          simp only [nonVarKeys]
          refine List.mem_flatten.mpr ⟨elts.toList.enum.map
            (fun ie => parent ++ "[" ++ toString ie.1 ++ "]"), ?_, ?_⟩
          · exact List.mem_map.mpr ⟨Ast.Name parent, hb, rfl⟩
          · exact List.mem_map.mpr ⟨ie, hie, rfl⟩
        rw [expand_fold_varObs M x parent "seq-item"
          (fun ie : Nat × Ast => parent ++ "[" ++ toString ie.1 ++ "]")
          (fun ie : Nat × Ast => guess_type ie.2)
          elts.toList.enum
          (fun ie hie hh => hxa (hh ▸ hmem ie hie))
          (fun ie hie hh => hMa (hh ▸ hmem ie hie)) G']
        exact hG'
      | _ => exact hG'
    | TupleLit elts =>
      simp only [step2]
      refine foldl_preserve (fun G' : Graph => varObs M x G' = varObs M x G) _
        targets.toList G rfl ?_
      intro G' b hb hG'
      cases b with
      | Name parent =>
        have hmem : ∀ ie ∈ elts.toList.enum,
            (parent ++ "[" ++ toString ie.1 ++ "]") ∈
              nonVarKeys (Ast.Assign targets (Ast.TupleLit elts)) := by
          intro ie hie
          simp only [nonVarKeys]
          refine List.mem_flatten.mpr ⟨elts.toList.enum.map
            (fun ie => parent ++ "[" ++ toString ie.1 ++ "]"), ?_, ?_⟩
          · exact List.mem_map.mpr ⟨Ast.Name parent, hb, rfl⟩
          · exact List.mem_map.mpr ⟨ie, hie, rfl⟩
        rw [expand_fold_varObs M x parent "seq-item"
          (fun ie : Nat × Ast => parent ++ "[" ++ toString ie.1 ++ "]")
          (fun ie : Nat × Ast => guess_type ie.2)
          elts.toList.enum
          (fun ie hie hh => hxa (hh ▸ hmem ie hie))
          (fun ie hie hh => hMa (hh ▸ hmem ie hie)) G']
        exact hG'
      | _ => exact hG'
    | _ => simp [step2]
  | _ => simp [step2]

/-- Effect of one walk event on the observed pair. -/
def applyAssign (x : String) (o : Option String × Option String) (a : Ast) :
    Option String × Option String :=
  match assignKindOf x a with
  | some k => (some k, some "var")
  | none => o

theorem T1_varObs (M x : String) (hxM : x ≠ M) :
    ∀ (w : List Ast), (∀ a ∈ w, x ∉ nonVarKeys a) → (∀ a ∈ w, M ∉ nonVarKeys a) →
    ∀ st : Graph × VarTypes,
    varObs M x (w.foldl (step1 M) st).1 = w.foldl (applyAssign x) (varObs M x st.1)
  | [], _, _, st => rfl
  | a :: w, hx, hM, st => by
    rw [List.foldl_cons, List.foldl_cons,
      T1_varObs M x hxM w (fun b hb => hx b (List.mem_cons_of_mem a hb))
        (fun b hb => hM b (List.mem_cons_of_mem a hb)) (step1 M st a)]
    congr 1
    rw [step1_varObs M x hxM a (hx a (List.mem_cons_self a w))
      (hM a (List.mem_cons_self a w)) st]
    rfl

theorem T2_varObs (M x : String) :
    ∀ (w : List Ast), (∀ a ∈ w, x ∉ nonVarKeys a) → (∀ a ∈ w, M ∉ nonVarKeys a) →
    ∀ G : Graph, varObs M x (w.foldl step2 G) = varObs M x G
  | [], _, _, G => rfl
  | a :: w, hx, hM, G => by
    rw [List.foldl_cons,
      T2_varObs M x w (fun b hb => hx b (List.mem_cons_of_mem a hb))
        (fun b hb => hM b (List.mem_cons_of_mem a hb)) (step2 G a),
      step2_varObs M x a (hx a (List.mem_cons_self a w))
        (hM a (List.mem_cons_self a w)) G]

theorem foldl_applyAssign_eq (x : String) :
    ∀ (w : List Ast) (o : Option String × Option String),
    w.foldl (applyAssign x) o =
    match (w.filterMap (assignKindOf x)).getLast? with
    | some k => (some k, some "var")
    | none => o
  | [], o => rfl
  | a :: w, o => by
    rw [List.foldl_cons, foldl_applyAssign_eq x w (applyAssign x o a),
      List.filterMap_cons]
    rcases ha : assignKindOf x a with _ | k
    · simp only [ha, applyAssign]
    · simp only [ha, applyAssign]
      rcases hl : (w.filterMap (assignKindOf x)) with _ | ⟨b, l⟩
      · simp [hl]
      · simp only [hl, List.getLast?_cons_cons]
        rcases hg : (b :: l).getLast? with _ | k2
        · exact absurd hg (by simp)
        · rfl

theorem varObs_init (M x : String) (hxM : x ≠ M) :
    varObs M x (Graph.empty.addNode M "module" M) = (none, none) := by
  unfold varObs Graph.kindOf Graph.relOf Graph.addNode Graph.empty
  rw [lookup_setNode_ne [] M ⟨some "module", some M⟩ x hxM]
  rfl

theorem hasNode_of_kindOf_some (G : Graph) (x k : String)
    (h : G.kindOf x = some k) : G.hasNode x = true := by
  unfold Graph.kindOf at h
  unfold Graph.hasNode
  rcases hl : lookupNode G.nodes x with _ | d
  · rw [hl] at h
    simp at h
  · rfl

theorem varObs_build_graph (p : String) (t : Ast) (x : String)
    (hxM : x ≠ basename p)
    (hx : ∀ a ∈ walk t, x ∉ nonVarKeys a)
    (hM : ∀ a ∈ walk t, basename p ∉ nonVarKeys a) :
    varObs (basename p) x (build_graph p t) =
    match ((walk t).filterMap (assignKindOf x)).getLast? with
    | some k => (some k, some "var")
    | none => (none, none) := by
  simp only [build_graph]
  rw [T2_varObs (basename p) x (walk t) hx hM,
    T1_varObs (basename p) x hxM (walk t) hx hM,
    foldl_applyAssign_eq, varObs_init (basename p) x hxM]

theorem guess_type_inTypeColor : ∀ e : Ast, inTypeColor (guess_type e) = true := by
  intro e
  cases e with
  | Constant v =>
    simp only [guess_type]
    by_cases h : inTypeColor (typeName v)
    · simp [h]
    · simp [h]
      rfl
  | Call f args =>
    cases f with
    | Name id =>
      simp only [guess_type]
      by_cases h : inTypeColor (lowerStr id)
      · simp [h]
      · simp [h]
        rfl
    | _ => rfl
  | _ => rfl

/-! ### Concrete programs used by the claims -/

/-- `x = [1, 2]` followed by `x = \x7b"a": 1\x7d`. -/
def progReassign : Ast := .Module (.ofList [
  .Assign (.ofList [.Name "x"])
    (.ListLit (.ofList [.Constant (.intVal 1), .Constant (.intVal 2)])),
  .Assign (.ofList [.Name "x"])
    (.DictLit (.ofList [.Constant (.strVal "a")]) (.ofList [.Constant (.intVal 1)]))])

/-- `class A:` with a single method `b`. -/
def progClassMethod : Ast := .Module (.ofList [
  .ClassDef "A" (.ofList [.FunctionDef "b" (.ofList [.Pass])])])

/-- `m = module()`: the constructor heuristic classifies `m` as `module`. -/
def progModuleCall : Ast := .Module (.ofList [
  .Assign (.ofList [.Name "m"]) (.Call (.Name "module") (.ofList []))])

/-- `x = 5` (used to instantiate the reachability statement). -/
def progOneVar : Ast := .Module (.ofList [
  .Assign (.ofList [.Name "x"]) (.Constant (.intVal 5))])

/-- `P = [1, "a", 2.0]`. -/
def progSeq : Ast := .Module (.ofList [
  .Assign (.ofList [.Name "P"]) (.ListLit (.ofList
    [.Constant (.intVal 1), .Constant (.strVal "a"), .Constant (.floatVal "2.0")]))])

/-- `x = 5` followed by `foo(x)`. -/
def progCallArg : Ast := .Module (.ofList [
  .Assign (.ofList [.Name "x"]) (.Constant (.intVal 5)),
  .ExprStmt (.Call (.Name "foo") (.ofList [.Name "x"]))])

/-- `def f(): pass` followed by `f()`. -/
def progDefThenCall : Ast := .Module (.ofList [
  .FunctionDef "f" (.ofList [.Pass]),
  .ExprStmt (.Call (.Name "f") (.ofList []))])

/-- `x = 5` followed by `class x: pass`: a class sharing a variable's key. -/
def progClassCollision : Ast := .Module (.ofList [
  .Assign (.ofList [.Name "x"]) (.Constant (.intVal 5)),
  .ClassDef "x" (.ofList [.Pass])])

/-- Two functions, each with a local `x = ...` of a different type. -/
def progTwoLocals : Ast := .Module (.ofList [
  .FunctionDef "f" (.ofList [.Assign (.ofList [.Name "x"]) (.Constant (.intVal 1))]),
  .FunctionDef "g" (.ofList [.Assign (.ofList [.Name "x"]) (.Constant (.strVal "s"))])])

/-! ### The claims -/

/-- C1, counterexample: after `x = [1,2]` then `x = \x7b"a": 1\x7d`, the claim says
no child nodes or `seq-item` edges from the earlier list literal remain, but
the expansion pass processes every assignment in the tree, so the node `x[0]`
still exists and is joined to `x` by a `seq-item` edge. -/
theorem c1_counterexample :
    (build_graph "t.py" progReassign).kindOf "x" = some "dict" ∧
    (build_graph "t.py" progReassign).hasNode "x[0]" = true ∧
    (build_graph "t.py" progReassign).relOf "x" "x[0]" = some "seq-item" :=
  ⟨rfl, rfl, rfl⟩

/-- C1, amended: after `x = [1,2]` then `x = \x7b"a": 1\x7d` the node `x` has
`kind=dict` and one `dict-item` child edge from the dict literal, but the
`seq-item` children `x[0]`, `x[1]` of the earlier list literal are also still
present: the container-expansion pass is additive over all assignments and
never removes the children produced for an overwritten literal. -/
theorem c1_amended :
    (build_graph "t.py" progReassign).kindOf "x" = some "dict" ∧
    (build_graph "t.py" progReassign).nodes.map Prod.fst =
      ["t.py", "x", "x[0]", "x[1]", "x.\x27a\x27"] ∧
    (build_graph "t.py" progReassign).edges =
      [("t.py", "x", "var"), ("x", "x[0]", "seq-item"), ("x", "x[1]", "seq-item"),
       ("x", "x.\x27a\x27", "dict-item")] :=
  ⟨rfl, rfl, rfl⟩

/-- C2, counterexample: for `class A:` with method `b`, the flat walk visits
the method's own `FunctionDef` node again and the function branch fires, so
an extra node `b()` with a `contains` edge from the module is produced —
contrary to the claim that methods are only discovered via the class branch. -/
theorem c2_counterexample :
    (build_graph "t.py" progClassMethod).hasNode "b()" = true ∧
    (build_graph "t.py" progClassMethod).relOf "t.py" "b()" = some "contains" ∧
    (build_graph "t.py" progClassMethod).nodes.map Prod.fst =
      ["t.py", "A", "A.b()", "b()"] :=
  ⟨rfl, rfl, rfl⟩

/-- C2, amended: every method of a class in the walk produces BOTH the
qualified node `Class.method()` (via the class branch) AND an independent
node `method()` with an edge to the module (via the top-level function
branch, because `ast.walk` enumerates all descendants, including class-body
function definitions). -/
theorem c2_amended (p : String) (t : Ast) (C m : String) (cbody mbody : AstList)
    (hc : Ast.ClassDef C cbody ∈ walk t)
    (hm : Ast.FunctionDef m mbody ∈ cbody.toList) :
    (build_graph p t).hasNode (C ++ "." ++ m ++ "()") = true ∧
    (build_graph p t).hasNode (m ++ "()") = true ∧
    (build_graph p t).Adj (basename p) (m ++ "()") := by
  have hmw : Ast.FunctionDef m mbody ∈ walk t :=
    walk_closure hc (by simpa [children] using hm)
  refine ⟨?_, ?_, ?_⟩
  · refine build_graph_achieve (fun G => G.hasNode (C ++ "." ++ m ++ "()") = true)
      (fun G k kind lbl h => hasNode_addNode_mono G k kind lbl _ h)
      (fun G u v r h => hasNode_addEdge_mono G u v r _ h) p t _ hc ?_
    intro st
    simp only [step1]
    refine foldl_achieve (fun G : Graph => G.hasNode (C ++ "." ++ m ++ "()") = true) _
      cbody.toList _ (Ast.FunctionDef m mbody) hm ?_ ?_
    · intro G
      exact hasNode_addEdge_mono _ C _ "method" _ (hasNode_addNode_self G _ "function" _)
    · intro G b _ hG
      cases b with
      | FunctionDef m2 mb2 =>
        exact hasNode_addEdge_mono _ C _ "method" _
          (hasNode_addNode_mono G _ "function" _ _ hG)
      | _ => exact hG
  · refine build_graph_achieve (fun G => G.hasNode (m ++ "()") = true)
      (fun G k kind lbl h => hasNode_addNode_mono G k kind lbl _ h)
      (fun G u v r h => hasNode_addEdge_mono G u v r _ h) p t _ hmw ?_
    intro st
    simp only [step1]
    exact hasNode_addEdge_mono _ (basename p) _ "contains" _
      (hasNode_addNode_self st.1 _ "function" _)
  · refine build_graph_achieve (fun G => G.Adj (basename p) (m ++ "()"))
      (fun G k kind lbl h => (Adj_addNode G k kind lbl _ _).mpr h)
      (fun G u v r h => Adj_addEdge_mono G u v r _ _ h) p t _ hmw ?_
    intro st
    simp only [step1]
    exact Adj_addEdge_self (st.1.addNode (m ++ "()") "function" (m ++ "()"))
      (basename p) (m ++ "()") "contains"

/-- C2, witness: the amended statement instantiated on `class A:` with
method `b`. -/
theorem c2_amended_witness :
    (build_graph "t.py" progClassMethod).hasNode "A.b()" = true ∧
    (build_graph "t.py" progClassMethod).hasNode "b()" = true ∧
    (build_graph "t.py" progClassMethod).Adj "t.py" "b()" :=
  c2_amended "t.py" progClassMethod "A" "b"
    (.ofList [.FunctionDef "b" (.ofList [.Pass])]) (.ofList [.Pass])
    (List.Mem.tail _ (List.Mem.head _)) (List.Mem.head _)

/-- C3, counterexample: for the one-line program `m = module()` the graph
holds two nodes whose `kind` is `module` (the module node and the variable
`m`, classified by the constructor-call heuristic), so "exactly one node
with kind=module" fails. -/
theorem c3_counterexample :
    (build_graph "t.py" progModuleCall).nodes.countP
      (fun q => q.2.kind == some "module") = 2 ∧
    (build_graph "t.py" progModuleCall).kindOf "m" = some "module" :=
  ⟨rfl, rfl⟩

/-- C3, amended: for every input the graph contains a node keyed by the
module file name (created once, with `kind=module`, at the start), and every
node of the graph is reachable from it by a path of edges; however the
module node need not be the only node whose `kind` is `module`, since the
classifier can assign the `module` kind to a variable. -/
theorem c3_amended (p : String) (t : Ast) :
    (build_graph p t).hasNode (basename p) = true ∧
    ∀ k, (build_graph p t).hasNode k = true →
      (build_graph p t).Reach (basename p) k :=
  ⟨build_graph_hasNode_module p t, fun k hk => build_graph_conn p t k hk⟩

/-- C3, witness: reachability instantiated on `x = 5`: the node `x` exists
and is reachable from the module node. -/
theorem c3_amended_witness :
    (build_graph "t.py" progOneVar).hasNode "x" = true ∧
    (build_graph "t.py" progOneVar).Reach "t.py" "x" :=
  ⟨by decide, (c3_amended "t.py" progOneVar).2 "x" (by decide)⟩

/-- C4 (confirmed): the builder is deterministic — two invocations on equal
module paths and equal parsed trees return graphs with identical node lists
(keys, kind and label attributes) and identical edge lists (endpoints and
relation tags).  In this embedding the builder is a pure function of its
input, which is exactly what the source guarantees: it reads no state other
than the file contents. -/
theorem c4_deterministic (p₁ p₂ : String) (t₁ t₂ : Ast)
    (hp : p₁ = p₂) (ht : t₁ = t₂) :
    (build_graph p₁ t₁).nodes = (build_graph p₂ t₂).nodes ∧
    (build_graph p₁ t₁).edges = (build_graph p₂ t₂).edges := by
  subst hp; subst ht; exact ⟨rfl, rfl⟩

/-- C4, witness: determinism instantiated on `x = 5; foo(x)`. -/
theorem c4_deterministic_witness :
    (build_graph "t.py" progCallArg).nodes = (build_graph "t.py" progCallArg).nodes ∧
    (build_graph "t.py" progCallArg).edges = (build_graph "t.py" progCallArg).edges :=
  c4_deterministic "t.py" "t.py" progCallArg progCallArg rfl rfl

/-- C5 (confirmed): the type classifier is total — on every expression node
it returns a tag that is a key of the fixed enumeration (so exactly one tag,
and, being a total function, it cannot raise), and an expression matching
none of its rules, such as a binary arithmetic expression, classifies as
`unknown`. -/
theorem c5_guess_type_total :
    (∀ e : Ast, inTypeColor (guess_type e) = true) ∧
    (∀ (l : Ast) (op : String) (r : Ast), guess_type (.BinOp l op r) = "unknown") :=
  ⟨guess_type_inTypeColor, fun _ _ _ => rfl⟩

/-- C6 (confirmed): `P = [1, "a", 2.0]` produces child nodes `P[0]` of kind
`int`, `P[1]` of kind `str` and `P[2]` of kind `float`, each joined to `P`
by a `seq-item` edge. -/
theorem c6_container_expansion :
    (build_graph "t.py" progSeq).kindOf "P[0]" = some "int" ∧
    (build_graph "t.py" progSeq).kindOf "P[1]" = some "str" ∧
    (build_graph "t.py" progSeq).kindOf "P[2]" = some "float" ∧
    (build_graph "t.py" progSeq).relOf "P" "P[0]" = some "seq-item" ∧
    (build_graph "t.py" progSeq).relOf "P" "P[1]" = some "seq-item" ∧
    (build_graph "t.py" progSeq).relOf "P" "P[2]" = some "seq-item" :=
  ⟨rfl, rfl, rfl, rfl, rfl, rfl⟩

/-- C7 (confirmed): for `x = 5` then `foo(x)` the graph holds a `function`
node `foo()`, a `calls` edge between the module node and `foo()`, and an
`arg` edge between `x` and `foo()`. -/
theorem c7_call_arg_linking :
    (build_graph "t.py" progCallArg).kindOf "foo()" = some "function" ∧
    (build_graph "t.py" progCallArg).relOf "t.py" "foo()" = some "calls" ∧
    (build_graph "t.py" progCallArg).relOf "x" "foo()" = some "arg" :=
  ⟨rfl, rfl, rfl⟩

/-- C8 (confirmed): when parsing fails, the error propagates to the caller
and no graph value at all — in particular no partial graph — is returned by
the failed invocation. -/
theorem c8_parse_failure (p msg : String) :
    build_graph_checked p (.error msg) = .error msg ∧
    ∀ G : Graph, build_graph_checked p (.error msg) ≠ .ok G :=
  ⟨rfl, fun G h => by simp [build_graph_checked] at h⟩

/-- C9 (confirmed): the graph holds at most one edge entry between any pair
of node keys, and re-adding an edge on an existing pair overwrites its
relation tag with the last one written: a function `f` that is defined and
later called ends with the single module edge tagged `calls`, not two edges
tagged `contains` and `calls`. -/
theorem c9_one_edge_per_pair :
    (∀ (p : String) (t : Ast) (u v : String),
      edgeCount (build_graph p t) u v ≤ 1) ∧
    (build_graph "t.py" progDefThenCall).edges = [("t.py", "f()", "calls")] :=
  ⟨fun p t u v => build_graph_edgesOnce p t u v, rfl⟩

/-- C10, counterexample: for `x = 5` followed by `class x: pass` the final
graph has no `var` edge and no `int` kind for `x` at all — the class branch
re-uses the same key, overwriting the node's kind to `class` and the module
edge's relation to `contains` — so "every assignment produces a variable
node connected by a var edge whose kind is the last assignment's
classification" fails as stated. -/
theorem c10_counterexample :
    (build_graph "t.py" progClassCollision).kindOf "x" = some "class" ∧
    (build_graph "t.py" progClassCollision).edges = [("t.py", "x", "contains")] :=
  ⟨rfl, rfl⟩

/-- C10, amended: every simple or annotated assignment to a bare name
anywhere in the tree — including inside function and class bodies —
produces a node keyed by that unscoped name with a `var` edge from the
module, and same-named locals collapse into one node whose kind is the
classification of the assignment encountered last in walk order, PROVIDED
no other construct (class name, function or callee key, container-item
child key) writes the same key string and the name differs from the module
key; a colliding construct overwrites the node and edge regardless of
assignment order. -/
theorem c10_amended (p : String) (t : Ast) (x k : String)
    (hxM : x ≠ basename p)
    (hx : ∀ a ∈ walk t, x ∉ nonVarKeys a)
    (hM : ∀ a ∈ walk t, basename p ∉ nonVarKeys a)
    (hlast : ((walk t).filterMap (assignKindOf x)).getLast? = some k) :
    (build_graph p t).hasNode x = true ∧
    (build_graph p t).relOf (basename p) x = some "var" ∧
    (build_graph p t).kindOf x = some k := by
  have hobs := varObs_build_graph p t x hxM hx hM
  rw [hlast] at hobs
  have hkind : (build_graph p t).kindOf x = some k := congrArg Prod.fst hobs
  have hrel : (build_graph p t).relOf (basename p) x = some "var" :=
    congrArg Prod.snd hobs
  exact ⟨hasNode_of_kindOf_some _ x k hkind, hrel, hkind⟩

/-- C10, witness: the amended statement instantiated on two functions `f`
and `g`, each containing a local assignment to `x` (an `int` in `f`, then a
`str` in `g`): the two locals collapse into a single module-level node `x`
with a `var` edge whose kind is the later classification, `str`. -/
theorem c10_amended_witness :
    (build_graph "t.py" progTwoLocals).hasNode "x" = true ∧
    (build_graph "t.py" progTwoLocals).relOf "t.py" "x" = some "var" ∧
    (build_graph "t.py" progTwoLocals).kindOf "x" = some "str" :=
  c10_amended "t.py" progTwoLocals "x" "str" (by decide) (by decide) (by decide)
    (by decide)

end Viz
